import Mathlib

/-!
A shallow embedding of tbstack's `src/proc.c`, and its properties.

The embedding follows `proc.c` function by function.

* C integers are `Int`s (or `Nat`s for `size_t`), and every place where the C
  code can leave the range of its type wraps explicitly (`wrap_int`,
  `to_ssize_t`, `to_size_t`).
* Calls into the kernel or the C library are events of a trace; what such a
  call returns is decided by an arbitrary `Kernel`, a function of the calls
  made so far and the call being made.  Quantifying over the kernel covers
  every behaviour of the environment.
* Loops without a bound in the C code (`wait_thread`,
  `copy_memory_process_vm_readv`) take a fuel argument: the number of loop
  iterations the caller is willing to watch.  `none` means the loop is still
  running when the fuel is spent.
* Diagnostics written to `stderr` are not part of the model; allocation is
  taken to succeed.
* A write past the end of a buffer leaves the behaviour of the C program
  undefined; the model gives that outcome a name (`MapsResult.undefined`).
-/

namespace Tbstack

/-! ## Machine integers and constants -/

/-- The largest `int`. -/
def INT_MAX : Int := 2147483647

/-- The smallest `int`. -/
def INT_MIN : Int := -2147483648

/-- The value an `int` holds after a result `x` wraps (two's complement, 32 bits). -/
def wrap_int (x : Int) : Int := (x + 2147483648) % 4294967296 - 2147483648

/-- The value a `ssize_t` (or `long`) holds after `x` is stored in it
(two's complement, 64 bits). -/
def to_ssize_t (x : Int) : Int :=
  (x + 9223372036854775808) % 18446744073709551616 - 9223372036854775808

/-- The value a `size_t` holds after `x` is stored in it (modulo `2^64`). -/
def to_size_t (x : Int) : Nat := (x % 18446744073709551616).toNat

/-- The poll interval in microseconds, `#define SLEEP_WAIT 500`. -/
def SLEEP_WAIT : Int := 500

/-- The constant `IOV_MAX` of `<limits.h>` on Linux. -/
def IOV_MAX : Int := 1024

/-- Signal numbers of `<signal.h>` on Linux (x86, ARM). -/
def SIGSEGV : Int := 11

/-- Signal number of `SIGCONT`. -/
def SIGCONT : Int := 18

/-- Signal number of `SIGSTOP`. -/
def SIGSTOP : Int := 19

/-- Request number of `PTRACE_ATTACH` in `<sys/ptrace.h>`. -/
def PTRACE_ATTACH : Int := 16

/-- Request number of `PTRACE_DETACH` in `<sys/ptrace.h>`. -/
def PTRACE_DETACH : Int := 17

/-- Option `WUNTRACED` of `waitpid`. -/
def WUNTRACED : Int := 2

/-! ## The attachment controller and the crash handler -/

/-- What `proc.c` asks of its environment, as the events of a trace.
`proc_stopped` (proc.c lines 49-71) only reads `/proc/<pid>/status`, so a call
of it is one event, whose value is -1 (probe failed), 0 (running) or 1
(stopped).  The store through the null pointer in `quit_handler` is an event
too: it faults. -/
inductive Event where
  | ptrace (request pid : Int)
  | kill (pid sig : Int)
  | waitpid (pid options : Int)
  | proc_stopped (pid : Int)
  | usleep (usec : Int)
  | gettimeofday
  | null_write
  | exit (status : Int)
  deriving DecidableEq

/-- The environment: the value a call returns, given the calls made before it. -/
abbrev Kernel := List Event → Event → Int

/-- The globals of `proc.c` the attachment controller works on, and the trace
of calls made so far. -/
structure State where
  attached_pid : Int
  attached_tid : Int
  stopped_pid : Int
  sleep_time : Int
  sleep_count : Int
  trace : List Event
  deriving DecidableEq

/-- The globals as `proc.c` initialises them. -/
def State.init : State :=
  { attached_pid := 0, attached_tid := 0, stopped_pid := 0,
    sleep_time := 0, sleep_count := 0, trace := [] }

/-- One call into the environment: its value, and the trace extended by it. -/
def call (k : Kernel) (e : Event) (s : State) : Int × State :=
  (k s.trace e, { s with trace := s.trace ++ [e] })

/-- Function `detach_process`, proc.c lines 230-245. -/
def detach_process (k : Kernel) (pid : Int) (s : State) : Int × State :=
  let rc : Int := 0
  let (r1, s1) := call k (.ptrace PTRACE_DETACH pid) s
  let rc : Int := if r1 < 0 then -1 else rc
  let (r2, s2) := call k (.kill pid SIGCONT) s1
  let rc : Int := if r2 < 0 then -1 else rc
  let s3 := { s2 with attached_pid := 0 }
  let (_, s4) := call k .gettimeofday s3
  (rc, s4)

/-- The end of `attach_process`, proc.c lines 210-215: the target is recorded
as stopped by this tool, then sent `SIGSTOP`. -/
def attach_process_stop (k : Kernel) (pid : Int) (s : State) : Int × State :=
  let s1 := { s with stopped_pid := pid }
  let (r, s2) := call k (.kill pid SIGSTOP) s1
  if r < 0 then (-1, s2) else (0, s2)

/-- Function `attach_process`, proc.c lines 188-216.  The status `waitpid` stores is
only printed, so it is not modelled. -/
def attach_process (k : Kernel) (pid : Int) (s : State) : Int × State :=
  let (_, s0) := call k .gettimeofday s
  let s1 := { s0 with attached_pid := pid }
  let (r, s2) := call k (.ptrace PTRACE_ATTACH pid) s1
  if r < 0 then
    let (_, s3) := detach_process k pid s2
    (-1, s3)
  else
    let (st, s3) := call k (.proc_stopped pid) s2
    if st = 0 then
      let (w, s4) := call k (.waitpid pid WUNTRACED) s3
      if w < 0 then
        let (_, s5) := detach_process k pid s4
        (-1, s5)
      else attach_process_stop k pid s4
    else attach_process_stop k pid s3

/-- Function `detach_thread`, proc.c lines 247-256. -/
def detach_thread (k : Kernel) (tid : Int) (s : State) : Int × State :=
  let (rc, s1) := call k (.ptrace PTRACE_DETACH tid) s
  let s2 := { s1 with attached_tid := 0 }
  if rc < 0 then (-1, s2) else (0, s2)

/-- Function `wait_thread`, proc.c lines 258-271.  `fuel` bounds the number of probes;
`stop_timeout` is the `extern int` of that name. -/
def wait_thread (k : Kernel) (stop_timeout tid : Int) : Nat → State → Option (Int × State)
  | 0, _ => none
  | fuel + 1, s =>
    let (rc, s1) := call k (.proc_stopped tid) s
    if rc ≠ 0 then some (if rc = -1 then -1 else 0, s1)
    else if stop_timeout ≠ 0 ∧ s1.sleep_time > stop_timeout then some (-1, s1)
    else
      let (_, s2) := call k (.usleep SLEEP_WAIT) s1
      wait_thread k stop_timeout tid fuel
        { s2 with sleep_time := wrap_int (s2.sleep_time + SLEEP_WAIT),
                  sleep_count := wrap_int (s2.sleep_count + 1) }

/-- Function `attach_thread`, proc.c lines 218-228. -/
def attach_thread (k : Kernel) (stop_timeout tid : Int) (fuel : Nat) (s : State) :
    Option (Int × State) :=
  let s1 := { s with attached_tid := tid }
  let (r, s2) := call k (.ptrace PTRACE_ATTACH tid) s1
  if r < 0 then some (-1, s2)
  else
    match wait_thread k stop_timeout tid fuel s2 with
    | none => none
    | some (w, s3) => if w < 0 then some (-1, s3) else some (0, s3)

/-- Function `quit_handler`, proc.c lines 415-428.  The handler does not return: the
store through the null pointer faults (the process dies of `SIGSEGV`, so the
`exit(1)` after it is not reached), and `exit` ends the process.  The state
returned is the one the process ends in. -/
def quit_handler (k : Kernel) (signum : Int) (s : State) : State :=
  let s1 := if s.attached_tid ≠ 0 then (call k (.ptrace PTRACE_DETACH s.attached_tid) s).2 else s
  let s2 := if s1.attached_pid ≠ 0 then (call k (.ptrace PTRACE_DETACH s1.attached_pid) s1).2 else s1
  let s3 := if s2.stopped_pid ≠ 0 then (call k (.kill s2.stopped_pid SIGCONT) s2).2 else s2
  if signum = SIGSEGV then (call k .null_write s3).2
  else (call k (.exit 1) s3).2

/-- The calls of a stop-wait that sleeps `m` times: a probe, then `m` times a
sleep of `SLEEP_WAIT` microseconds followed by a probe. -/
def poll_trace (tid : Int) : Nat → List Event
  | 0 => [.proc_stopped tid]
  | m + 1 => .proc_stopped tid :: .usleep SLEEP_WAIT :: poll_trace tid m

/-- The number of sleeps before the accumulated wait, counted in steps of
`SLEEP_WAIT` from `t0`, exceeds `T`. -/
def sleeps_until (T t0 : Int) : Nat :=
  if t0 > T then 0 else ((T - t0) / SLEEP_WAIT + 1).toNat

/-- A kernel under which every call succeeds and every target is seen stopped. -/
def kernel_ok : Kernel := fun _ e =>
  match e with
  | .proc_stopped _ => 1
  | _ => 0

/-- A kernel under which every call succeeds and no target is ever seen stopped. -/
def kernel_running : Kernel := fun _ _ => 0

/-! ## The remote memory reader -/

/-- Modelled from the spec: `struct mem_data_chunk` is declared in `mem_map.h`,
which is not among the sources.  It is the spec's MemoryRequest: the target
`start` address, the `length` in bytes (a `size_t`), and the destination
buffer `data` owned by the caller.  These are the fields `proc.c` reads. -/
structure mem_data_chunk where
  start : Nat
  data : Nat
  length : Nat
  deriving DecidableEq

/-- The `struct iovec` of `<sys/uio.h>`: a base address and a length. -/
structure iovec where
  iov_base : Nat
  iov_len : Nat
  deriving DecidableEq

/-- The descriptors `local_iov` of proc.c lines 287-288, one per frame. -/
def local_iov (frames : List mem_data_chunk) : List iovec :=
  frames.map fun f => { iov_base := f.data, iov_len := f.length }

/-- The descriptors `remote_iov` of proc.c lines 289-290, one per frame. -/
def remote_iov (frames : List mem_data_chunk) : List iovec :=
  frames.map fun f => { iov_base := f.start, iov_len := f.length }

/-- The table `frame_bytes` of proc.c lines 286-294, built from a running
`bytes_total`.  `bytes_total` is a `ssize_t` and the length a `size_t`: the sum
is taken modulo `2^64` and stored back into the `ssize_t`. -/
def frame_bytes_from (bytes_total : Int) : List mem_data_chunk → List Int
  | [] => []
  | f :: fs =>
    to_ssize_t (bytes_total + f.length) ::
      frame_bytes_from (to_ssize_t (bytes_total + f.length)) fs

/-- The table `frame_bytes` as the first loop of
`copy_memory_process_vm_readv` leaves it. -/
def frame_bytes (frames : List mem_data_chunk) : List Int := frame_bytes_from 0 frames

/-- The search of proc.c lines 318-321, from index `i - 1` downwards: the
largest index below `i` whose table entry equals `bytes_total`, or `-1`. -/
def find_boundary (fb : List Int) (bytes_total : Int) : Nat → Int
  | 0 => -1
  | i + 1 => if fb[i]? = some bytes_total then (i : Int) else find_boundary fb bytes_total i

/-- One bulk-copy call as `copy_memory_process_vm_readv` makes it: the index of
the first descriptor passed, the number passed, the descriptors themselves,
the value returned, and `bytes_total` after the call. -/
structure ReadvCall where
  seg_count : Int
  frames_to_read : Int
  local_iov : List iovec
  remote_iov : List iovec
  bytes_read : Int
  bytes_total : Int
  deriving DecidableEq

/-- What a run of `copy_memory_process_vm_readv` leaves: the value returned
(`none` while the loop is still running), the bulk-copy calls made, the global
`total_length`, and the environment. -/
structure ReadvResult (W : Type) where
  rc : Option Int
  calls : List ReadvCall
  total_length : Nat
  world : W

/-- The number of descriptors passed to a bulk-copy call, proc.c lines
299-301: those from `seg_count` on, at most `IOV_MAX`. -/
def frames_to_read (n_frames seg_count : Int) : Int :=
  if n_frames - seg_count > IOV_MAX then IOV_MAX else n_frames - seg_count

/-- The descriptors a bulk-copy call is passed: `count` of them, starting at
`iov + seg_count`. -/
def iov_window (iov : List iovec) (seg_count count : Int) : List iovec :=
  (iov.drop seg_count.toNat).take count.toNat

/-- The system call of proc.c lines 303-309.  `readv w l r` is
`process_vm_readv` with the local descriptors `l` and the remote ones `r` in
environment `w`: the value returned and the environment after. -/
def readv_call {W : Type} (readv : W → List iovec → List iovec → Int × W)
    (frames : List mem_data_chunk) (seg_count : Int) (w : W) : Int × W :=
  readv w
    (iov_window (local_iov frames) seg_count (frames_to_read frames.length seg_count))
    (iov_window (remote_iov frames) seg_count (frames_to_read frames.length seg_count))

/-- The record of the bulk-copy call made from `seg_count`. -/
def call_record (frames : List mem_data_chunk) (seg_count bytes_read bytes_total : Int) :
    ReadvCall :=
  { seg_count := seg_count
    frames_to_read := frames_to_read frames.length seg_count
    local_iov := iov_window (local_iov frames) seg_count (frames_to_read frames.length seg_count)
    remote_iov := iov_window (remote_iov frames) seg_count (frames_to_read frames.length seg_count)
    bytes_read := bytes_read
    bytes_total := bytes_total }

/-- The `while (1)` loop of `copy_memory_process_vm_readv`, proc.c lines
297-335, entered with `seg_count`, `bytes_total` and the global
`total_length`.  The value the system call returns is a `long`; the addition
to `bytes_total` wraps as the machine's does; `total_length` is a `size_t`. -/
def readv_loop {W : Type} (readv : W → List iovec → List iovec → Int × W)
    (frames : List mem_data_chunk) :
    Nat → Int → Int → Nat → W → ReadvResult W
  | 0, _, _, total_length, w => ⟨none, [], total_length, w⟩
  | fuel + 1, seg_count, bytes_total, total_length, w =>
    let bytes_read := to_ssize_t (readv_call readv frames seg_count w).1
    let w1 := (readv_call readv frames seg_count w).2
    if bytes_read < 0 then
      ⟨some (-1), [call_record frames seg_count bytes_read bytes_total], total_length, w1⟩
    else
      let bytes_total := to_ssize_t (bytes_total + bytes_read)
      let total_length := to_size_t bytes_total
      let c := call_record frames seg_count bytes_read bytes_total
      let seg_count := find_boundary (frame_bytes frames) bytes_total frames.length
      if seg_count < 0 then ⟨some (-1), [c], total_length, w1⟩
      else if seg_count = (frames.length : Int) - 1 then ⟨some 0, [c], total_length, w1⟩
      else
        let rest := readv_loop readv frames fuel (seg_count + 1) bytes_total total_length w1
        { rest with calls := c :: rest.calls }

/-- Function `copy_memory_process_vm_readv`, proc.c lines 273-344, on the frames
`frames`, with `total_length` the global of that name before the call.
`n_frames`, an `int`, is the number of frames: the embedding is that of the C
code for batches of fewer than `2^31` frames. -/
def copy_memory_process_vm_readv {W : Type} (readv : W → List iovec → List iovec → Int × W)
    (frames : List mem_data_chunk) (fuel : Nat) (total_length : Nat) (w : W) : ReadvResult W :=
  readv_loop readv frames fuel 0 0 total_length w

/-- What `copy_memory_proc_mem` asks of the C library: `fopen` of
`/proc/<pid>/mem` (whether it gave a stream), `fseek` to an offset from the
start (its return value), `fread` of one item of `size` bytes into the buffer
at `ptr` (the number of items read), and `fclose`. -/
structure MemFileOps (W : Type) where
  fopen : W → Bool × W
  fseek : Int → W → Int × W
  fread : Nat → Nat → W → Nat × W
  fclose : W → W

/-- The `for` loop of `copy_memory_proc_mem`, proc.c lines 360-378.  The
offset passed to `fseek` is `(long)frames[i]->start`; `total_length` is a
`size_t`. -/
def proc_mem_loop {W : Type} (ops : MemFileOps W) : List mem_data_chunk → Nat → W → Int × Nat × W
  | [], total_length, w => (0, total_length, w)
  | f :: fs, total_length, w =>
    if (ops.fseek (to_ssize_t f.start) w).1 < 0 then
      (-1, total_length, (ops.fseek (to_ssize_t f.start) w).2)
    else if (ops.fread f.data f.length (ops.fseek (to_ssize_t f.start) w).2).1 ≠ 1 then
      (-1, total_length, (ops.fread f.data f.length (ops.fseek (to_ssize_t f.start) w).2).2)
    else
      proc_mem_loop ops fs (to_size_t (total_length + f.length))
        (ops.fread f.data f.length (ops.fseek (to_ssize_t f.start) w).2).2

/-- Function `copy_memory_proc_mem`, proc.c lines 346-385: the value returned, the
global `total_length` and the environment after the call. -/
def copy_memory_proc_mem {W : Type} (ops : MemFileOps W) (frames : List mem_data_chunk)
    (total_length : Nat) (w : W) : Int × Nat × W :=
  if (ops.fopen w).1 = false then (-1, total_length, (ops.fopen w).2)
  else
    let r := proc_mem_loop ops frames total_length (ops.fopen w).2
    (r.1, r.2.1, ops.fclose r.2.2)

/-- The sum of the lengths of the first `k` frames. -/
def prefix_length (frames : List mem_data_chunk) (k : Nat) : Nat :=
  ((frames.take k).map mem_data_chunk.length).sum

/-- The sum of the lengths of all frames. -/
def total_bytes (frames : List mem_data_chunk) : Nat :=
  (frames.map mem_data_chunk.length).sum

/-- An environment for `process_vm_readv` that answers call number `i`
(counted from 0) with `answers i`, whatever it is passed. -/
def scripted_readv (answers : Nat → Int) : Nat → List iovec → List iovec → Int × Nat :=
  fun i _ _ => (answers i, i + 1)

/-! ### A model of the target's memory -/

/-- The target's memory: the byte at each readable address. -/
abbrev TargetMemory := Nat → Option Nat

/-- The sampler's own memory, which holds the destination buffers. -/
abbrev LocalMemory := Nat → Nat

/-- Bytes are copied from the target address `src` to the local address `dst`,
in order, until `len` are copied or an address is not readable: the number of
bytes copied and the local memory after. -/
def copy_bytes (mem : TargetMemory) : Nat → Nat → Nat → LocalMemory → Nat × LocalMemory
  | 0, _, _, loc => (0, loc)
  | len + 1, src, dst, loc =>
    match mem src with
    | none => (0, loc)
    | some b =>
      ((copy_bytes mem len (src + 1) (dst + 1) (Function.update loc dst b)).1 + 1,
       (copy_bytes mem len (src + 1) (dst + 1) (Function.update loc dst b)).2)

/-- The kernel's bulk copy, transferring descriptor after descriptor until the
first unreadable address: the bytes transferred, whether it stopped at an
unreadable address, and the local memory after.  The two descriptor lists are
paired one to one, as `copy_memory_process_vm_readv` builds them. -/
def bulk_copy (mem : TargetMemory) : List iovec → List iovec → LocalMemory →
    Nat × Bool × LocalMemory
  | l :: ls, r :: rs, loc =>
    if (copy_bytes mem r.iov_len r.iov_base l.iov_base loc).1 < r.iov_len then
      ((copy_bytes mem r.iov_len r.iov_base l.iov_base loc).1, true,
       (copy_bytes mem r.iov_len r.iov_base l.iov_base loc).2)
    else
      let rest := bulk_copy mem ls rs (copy_bytes mem r.iov_len r.iov_base l.iov_base loc).2
      (r.iov_len + rest.1, rest.2.1, rest.2.2)
  | _, _, loc => (0, false, loc)

/-- The system call `process_vm_readv` over a target memory: the number of
bytes transferred, or `-1` when it stopped at an unreadable address before
transferring any. -/
def process_vm_readv (mem : TargetMemory) (loc : LocalMemory) (l r : List iovec) :
    Int × LocalMemory :=
  let c := bulk_copy mem l r loc
  if c.2.1 = true ∧ c.1 = 0 then (-1, c.2.2) else ((c.1 : Int), c.2.2)

/-- The stream on `/proc/<pid>/mem`: the file position and the sampler's
memory. -/
structure MemStream where
  pos : Nat
  loc : LocalMemory

/-- The file `/proc/<pid>/mem` reading the target memory `mem`: `fopen`
succeeds; `fseek` fails on a negative offset and otherwise sets the position;
`fread` of one item of `size` bytes reads at the position until `size` bytes
are read or an address is unreadable, and counts the item when it is complete
(an item of size 0 is never counted). -/
def mem_file (mem : TargetMemory) : MemFileOps MemStream where
  fopen := fun w => (true, w)
  fseek := fun off w => if off < 0 then (-1, w) else (0, { w with pos := off.toNat })
  fread := fun ptr size w =>
    if size = 0 then (0, w)
    else
      (if (copy_bytes mem size w.pos ptr w.loc).1 = size then 1 else 0,
       { pos := w.pos + (copy_bytes mem size w.pos ptr w.loc).1,
         loc := (copy_bytes mem size w.pos ptr w.loc).2 })
  fclose := fun w => w

/-- The sampler's memory once the bytes of every frame, in order, have been
copied from the target to the frame's buffer. -/
def copy_all (mem : TargetMemory) (frames : List mem_data_chunk) (loc : LocalMemory) :
    LocalMemory :=
  frames.foldl (fun m f => (copy_bytes mem f.length f.start f.data m).2) loc

/-- A target memory readable everywhere; the byte at address `a` is `a % 256`. -/
def memory_all : TargetMemory := fun a => some (a % 256)

/-- A sampler memory of zero bytes. -/
def local_zero : LocalMemory := fun _ => 0

/-- Three requests, of 3, 5 and 2 bytes. -/
def frames_352 : List mem_data_chunk := [⟨4096, 100, 3⟩, ⟨8192, 200, 5⟩, ⟨12288, 300, 2⟩]

/-- Three requests of 1, `2^64 - 1` and 1 bytes: their lengths sum to more than
a `size_t` holds. -/
def frames_wrap : List mem_data_chunk :=
  [⟨4096, 100, 1⟩, ⟨8192, 200, 18446744073709551615⟩, ⟨12288, 300, 1⟩]

/-- Every address of every requested range is readable. -/
def all_readable (mem : TargetMemory) (frames : List mem_data_chunk) : Prop :=
  ∀ f ∈ frames, ∀ j, j < f.length → (mem (f.start + j)).isSome = true

/-- No two requested target ranges overlap. -/
def targets_disjoint (frames : List mem_data_chunk) : Prop :=
  frames.Pairwise fun f g => f.start + f.length ≤ g.start ∨ g.start + g.length ≤ f.start

/-- No two destination buffers overlap. -/
def buffers_disjoint (frames : List mem_data_chunk) : Prop :=
  frames.Pairwise fun f g => f.data + f.length ≤ g.data ∨ g.data + g.length ≤ f.data

/-! ## The region map builder -/

/-- Modelled from the spec: the kind of a Region.  `mem_map.h`, which declares
the `MEM_REGION_TYPE_*` constants, is not among the sources; `proc.c` names
`MMAP`, `VDSO`, `VSYSCALL` and `DELETED`, and the spec calls the kind of a
region without a path Anonymous. -/
inductive mem_region_type where
  | MEM_REGION_TYPE_ANONYMOUS
  | MEM_REGION_TYPE_MMAP
  | MEM_REGION_TYPE_VDSO
  | MEM_REGION_TYPE_VSYSCALL
  | MEM_REGION_TYPE_DELETED
  deriving DecidableEq

/-- Modelled from the spec: `struct mem_region` of `mem_map.h` (not among the
sources), the spec's Region: `start`, `length`, file `offset`, the kind
`type`, and an optional owned `path` (`none` is the C `NULL`).  These are the
fields `proc.c` writes. -/
structure mem_region where
  start : Nat
  length : Nat
  offset : Nat
  type : mem_region_type
  path : Option (List Char)
  deriving DecidableEq

/-- Modelled from the spec: `mem_region_init` of `mem_map.c` (not among the
sources) leaves a region of kind Anonymous with no stored path: "empty path
→ Anonymous", a path being "present only for file-backed kinds". -/
def mem_region_init : mem_region :=
  { start := 0, length := 0, offset := 0,
    type := .MEM_REGION_TYPE_ANONYMOUS, path := none }

/-- The functions of `mem_map.c` (not among the sources) that `create_maps`
calls, over any representation `M` of `struct mem_map`: `mem_map_init` (the
map it leaves), `mem_map_add_region` (its return value and the map after), and
`mem_map_create_region_index`. -/
structure MemMapOps (M : Type) where
  mem_map_init : M
  mem_map_add_region : M → mem_region → Int × M
  mem_map_create_region_index : M → M

/-- The `isspace` of `<ctype.h>` in the C locale: space, tab, newline, vertical
tab, form feed, carriage return. -/
def isspace (c : Char) : Bool :=
  c = Char.ofNat 32 || c = Char.ofNat 9 || c = Char.ofNat 10 || c = Char.ofNat 11 || c = Char.ofNat 12
    || c = Char.ofNat 13

/-- The end ` %[^\t\n]` of the format of proc.c line 97, on the text that
follows the inode: white space is skipped, then the longest run of characters
other than `\t` and `\n` (and the string's final NUL) is stored in `path`.  The
conversion fails (`none`) when the run is empty. -/
def scan_path (rest : List Char) : Option (List Char) :=
  match (rest.dropWhile isspace).takeWhile
      (fun c => c != Char.ofNat 9 && c != Char.ofNat 10 && c != Char.ofNat 0) with
  | [] => none
  | c :: cs => some (c :: cs)

/-- The constant `PATH_MAX` of `<linux/limits.h>`: the size of the buffer
`path` of `create_maps`. -/
def PATH_MAX : Nat := 4096

/-- The trailing path text of a maps line: what follows the inode and the
white space after it, up to the end of the line. -/
def path_field (rest : List Char) : List Char :=
  (rest.dropWhile isspace).takeWhile (fun c => c != Char.ofNat 10 && c != Char.ofNat 0)

/-- One line of `/proc/<pid>/maps` as `fgets` returns it, seen through the
first ten conversions of the `sscanf` of proc.c lines 97-103
(`%lx-%lx %c%c%c%c %lx %x:%x %d`): how many of them succeeded (`EOF` is -1),
the values they stored in `addr_start`, `addr_end` and `offset` (each a
`size_t`), and the text after the inode.  The permission characters, the
device numbers and the inode are stored but never read. -/
structure maps_line where
  converted : Int
  addr_start : Nat
  addr_end : Nat
  offset : Nat
  rest : List Char
  deriving DecidableEq

/-- The number of conversions of the `sscanf` of proc.c lines 97-103 and the
text its last directive stores in `path`.  When the eleventh conversion does
not happen the buffer keeps what an earlier line left in it; the code reads
`path` only under `scan > 10`, so that content is never read and is given as
`[]`. -/
def scan_result (l : maps_line) : Int × List Char :=
  if l.converted < 10 then (l.converted, [])
  else
    match scan_path l.rest with
    | none => (10, [])
    | some p => (11, p)

/-- The `sscanf` of proc.c lines 97-103.  The directive `%[^\t\n]` has no
field width: it stores the whole text and a final NUL in `path[PATH_MAX]`.  A
text of `PATH_MAX` characters or more runs past the end of the buffer, and the
behaviour of the program is undefined from there: `none`. -/
def sscanf_maps (l : maps_line) : Option (Int × List Char) :=
  if (scan_result l).2.length < PATH_MAX then some (scan_result l) else none

/-- The region `create_maps` fills in, proc.c lines 110-130, from what
`mem_region_init` left (`init`) and what `sscanf` stored.  `strcmp` and
`strlen` are equality and length of the texts; `addr_end - addr_start` is a
`size_t` subtraction. -/
def region_of_scan (init : mem_region) (addr_start addr_end offset : Nat) (scan : Int)
    (path : List Char) : mem_region :=
  let region : mem_region :=
    { init with start := addr_start
                length := to_size_t ((addr_end : Int) - addr_start)
                offset := offset }
  if scan > 10 ∧ path ≠ [] then
    if path = "[vdso]".toList then
      { region with type := .MEM_REGION_TYPE_VDSO }
    else if path = "[vsyscall]".toList then
      { region with type := .MEM_REGION_TYPE_VSYSCALL }
    else if path.length > 10 ∧ path.drop (path.length - 10) = " (deleted)".toList then
      { region with path := some (path.take (path.length - 10))
                    type := .MEM_REGION_TYPE_DELETED }
    else
      { region with path := some path
                    type := .MEM_REGION_TYPE_MMAP }
  else region

/-- The region `create_maps` makes for a line that converts at least ten
fields and whose path text fits the buffer. -/
def line_region (l : maps_line) : mem_region :=
  region_of_scan mem_region_init l.addr_start l.addr_end l.offset
    (scan_result l).1 (scan_result l).2

/-- What a call of `create_maps` comes to: undefined behaviour (a write past
the end of `path`), `NULL`, or a map. -/
inductive MapsResult (M : Type) where
  | undefined
  | null
  | map (m : M)
  deriving DecidableEq

/-- The `while (fgets ...)` loop of `create_maps`, proc.c lines 96-137, over
the lines still to read and the map so far; `null` is the `map = NULL` of a
failed insertion. -/
def create_maps_loop {M : Type} (ops : MemMapOps M) : List maps_line → M → MapsResult M
  | [], map => .map map
  | l :: ls, map =>
    match sscanf_maps l with
    | none => .undefined
    | some (scan, path) =>
      if scan < 10 then create_maps_loop ops ls map
      else if (ops.mem_map_add_region map
          (region_of_scan mem_region_init l.addr_start l.addr_end l.offset scan path)).1 ≠ 0 then
        .null
      else
        create_maps_loop ops ls (ops.mem_map_add_region map
          (region_of_scan mem_region_init l.addr_start l.addr_end l.offset scan path)).2

/-- Function `create_maps`, proc.c lines 73-144.  `file` is `/proc/<pid>/maps` as a
list of lines, `none` when `fopen` fails. -/
def create_maps {M : Type} (ops : MemMapOps M) (file : Option (List maps_line)) :
    MapsResult M :=
  match file with
  | none => .null
  | some lines =>
    match create_maps_loop ops lines ops.mem_map_init with
    | .undefined => .undefined
    | .null => .null
    | .map map => .map (ops.mem_map_create_region_index map)

/-- A map kept as the list of its regions in insertion order; every insertion
succeeds. -/
def list_map : MemMapOps (List mem_region) where
  mem_map_init := []
  mem_map_add_region := fun m r => (0, m ++ [r])
  mem_map_create_region_index := fun m => m

/-- Three lines of a maps file: a mapped library, a line that does not parse,
and a mapping of a deleted file. -/
def sample_lines : List maps_line :=
  [ { converted := 10, addr_start := 4096, addr_end := 8192, offset := 0,
      rest := "   /usr/lib/libc.so\n".toList },
    { converted := 3, addr_start := 0, addr_end := 0, offset := 0, rest := [] },
    { converted := 10, addr_start := 12288, addr_end := 20480, offset := 4096,
      rest := " /tmp/old file (deleted)\n".toList } ]

/-- A line whose path, `/a<TAB>b (deleted)`, holds a tab. -/
def tab_line : maps_line :=
  { converted := 10, addr_start := 4096, addr_end := 8192, offset := 0,
    rest := " /a".toList ++ Char.ofNat 9 :: "b (deleted)\n".toList }

/-- A line whose path is `PATH_MAX` times the letter `a`. -/
def long_line : maps_line :=
  { converted := 10, addr_start := 4096, addr_end := 8192, offset := 0,
    rest := Char.ofNat 32 :: (List.replicate PATH_MAX 'a' ++ [Char.ofNat 10]) }

/-- Two requests of `2^63` bytes each, whose target ranges and buffers are the
two halves of the address space. -/
def frames_halves : List mem_data_chunk :=
  [⟨0, 0, 9223372036854775808⟩,
   ⟨9223372036854775808, 9223372036854775808, 9223372036854775808⟩]

/-- Three requests, of `2^63 - 1`, 6 and 3 bytes, with disjoint ranges and
buffers. -/
def frames_past_half : List mem_data_chunk :=
  [⟨0, 0, 9223372036854775807⟩, ⟨9223372036854775808, 9223372036854775808, 6⟩,
   ⟨9223372036854775814, 9223372036854775814, 3⟩]

/-- An environment whose bulk-copy calls return `2^63 - 1`, then 6, then 3. -/
def answers_past_half : Nat → Int :=
  fun i => if i = 0 then 9223372036854775807 else if i = 1 then 6 else 3

/-! ## Properties of the attachment controller and the crash handler -/

theorem wrap_int_of_range (x : Int) (h1 : INT_MIN ≤ x) (h2 : x ≤ INT_MAX) : wrap_int x = x := by
  unfold wrap_int; unfold INT_MIN at h1; unfold INT_MAX at h2; omega

theorem wrap_int_add_wrap (a b : Int) : wrap_int (wrap_int a + b) = wrap_int (a + b) := by
  unfold wrap_int; omega

theorem wrap_int_le (x : Int) : wrap_int x ≤ INT_MAX := by
  unfold wrap_int INT_MAX; omega

theorem sleeps_until_zero (T t0 : Int) (h : sleeps_until T t0 = 0) : t0 > T := by
  unfold sleeps_until SLEEP_WAIT at h
  by_contra hc
  rw [if_neg hc] at h
  omega

theorem sleeps_until_succ (T t0 : Int) (m : Nat) (h : sleeps_until T t0 = m + 1) :
    t0 ≤ T ∧ sleeps_until T (t0 + SLEEP_WAIT) = m := by
  unfold sleeps_until SLEEP_WAIT at *
  by_cases hc : t0 > T
  · rw [if_pos hc] at h; omega
  · rw [if_neg hc] at h
    refine ⟨by omega, ?_⟩
    by_cases hd : t0 + 500 > T
    · rw [if_pos hd]; omega
    · rw [if_neg hd]; omega

theorem wait_thread_times_out (k : Kernel) (tid T : Int)
    (hk : ∀ t, k t (.proc_stopped tid) = 0) (hT0 : 0 < T) (hT : T ≤ INT_MAX - SLEEP_WAIT) :
    ∀ (m : Nat) (s : State), sleeps_until T s.sleep_time = m → INT_MIN ≤ s.sleep_time →
      INT_MIN ≤ s.sleep_count → s.sleep_count ≤ INT_MAX →
      ∀ fuel, m < fuel →
        wait_thread k T tid fuel s = some (-1,
          { s with sleep_time := s.sleep_time + SLEEP_WAIT * m,
                   sleep_count := wrap_int (s.sleep_count + m),
                   trace := s.trace ++ poll_trace tid m }) := by
  intro m
  induction m with
  | zero =>
    intro s hm h1 h2 h3 fuel hf
    obtain ⟨f, rfl⟩ : ∃ f, fuel = f + 1 := ⟨fuel - 1, by omega⟩
    have hgt := sleeps_until_zero T _ hm
    have hne : T ≠ 0 := by omega
    simp [wait_thread, call, hk, hne, hgt, poll_trace, wrap_int_of_range _ h2 h3]
  | succ m ih =>
    intro s hm h1 h2 h3 fuel hf
    obtain ⟨f, rfl⟩ : ∃ f, fuel = f + 1 := ⟨fuel - 1, by omega⟩
    obtain ⟨hle, hm'⟩ := sleeps_until_succ T _ m hm
    have hwrap : wrap_int (s.sleep_time + SLEEP_WAIT) = s.sleep_time + SLEEP_WAIT := by
      apply wrap_int_of_range
      · unfold SLEEP_WAIT; omega
      · unfold SLEEP_WAIT at *; omega
    have hnot : ¬ (s.sleep_time > T) := by omega
    have hne : T ≠ 0 := by omega
    have hc1 : INT_MIN ≤ wrap_int (s.sleep_count + 1) := by unfold wrap_int INT_MIN; omega
    have hc2 := wrap_int_le (s.sleep_count + 1)
    have := ih { s with sleep_time := s.sleep_time + SLEEP_WAIT,
                        sleep_count := wrap_int (s.sleep_count + 1),
                        trace := s.trace ++ [.proc_stopped tid] ++ [.usleep SLEEP_WAIT] }
      hm' (by simp only; unfold SLEEP_WAIT; omega) hc1 hc2 f (by omega)
    simp only [wait_thread, call, hk]
    simp only [ne_eq, not_true_eq_false, ↓reduceIte, hnot, and_false, hwrap]
    rw [this]
    simp only [wrap_int_add_wrap, poll_trace, List.append_assoc, List.singleton_append,
      Option.some.injEq, Prod.mk.injEq, true_and]
    congr 1
    · push_cast; ring
    · congr 1; push_cast; ring_nf

theorem wait_thread_needs_fuel (k : Kernel) (tid T : Int)
    (hk : ∀ t, k t (.proc_stopped tid) = 0) (hT : T ≤ INT_MAX - SLEEP_WAIT) :
    ∀ (fuel : Nat) (s : State), fuel ≤ sleeps_until T s.sleep_time → INT_MIN ≤ s.sleep_time →
        wait_thread k T tid fuel s = none := by
  intro fuel
  induction fuel with
  | zero => intro s _ _; rfl
  | succ f ih =>
    intro s hf h1
    obtain ⟨m, hm⟩ : ∃ m, sleeps_until T s.sleep_time = m + 1 :=
      ⟨sleeps_until T s.sleep_time - 1, by omega⟩
    obtain ⟨hle, hm'⟩ := sleeps_until_succ T _ m hm
    have hwrap : wrap_int (s.sleep_time + SLEEP_WAIT) = s.sleep_time + SLEEP_WAIT := by
      apply wrap_int_of_range
      · unfold SLEEP_WAIT; omega
      · unfold SLEEP_WAIT at *; omega
    have hnot : ¬ (s.sleep_time > T) := by omega
    simp only [wait_thread, call, hk]
    simp only [ne_eq, not_true_eq_false, ↓reduceIte, hnot, and_false, hwrap]
    apply ih
    · simp only; omega
    · simp only; unfold SLEEP_WAIT; omega

theorem wait_thread_unbounded (k : Kernel) (tid : Int)
    (hk : ∀ t, k t (.proc_stopped tid) = 0) :
    ∀ (fuel : Nat) (s : State), wait_thread k 0 tid fuel s = none := by
  intro fuel
  induction fuel with
  | zero => intro s; rfl
  | succ f ih =>
    intro s
    simp only [wait_thread, call, hk]
    simp [ih]

theorem wait_thread_int_max (k : Kernel) (tid : Int)
    (hk : ∀ t, k t (.proc_stopped tid) = 0) :
    ∀ (fuel : Nat) (s : State), s.sleep_time ≤ INT_MAX →
      wait_thread k INT_MAX tid fuel s = none := by
  intro fuel
  induction fuel with
  | zero => intro s _; rfl
  | succ f ih =>
    intro s hs
    have hnot : ¬ (s.sleep_time > INT_MAX) := by omega
    simp only [wait_thread, call, hk]
    simp only [ne_eq, not_true_eq_false, ↓reduceIte, hnot, and_false]
    apply ih
    exact wrap_int_le _


/-- C1: `quit_handler` makes these calls and no others, in this order: a
`PTRACE_DETACH` of `attached_tid` if it is not 0, a `PTRACE_DETACH` of
`attached_pid` if it is not 0, a `SIGCONT` to `stopped_pid` if it is not 0,
then the terminating action, the null write for `SIGSEGV` and `exit(1)` for
any other signal.  With no thread attached and process `P ≠ 0` attached and
stopped, that is one `PTRACE_DETACH` of `P`, then one `kill(P, SIGCONT)`, then
the terminating action. -/
theorem quit_handler_trace (k : Kernel) (signum : Int) (s : State) :
    (quit_handler k signum s).trace =
        s.trace
          ++ (if s.attached_tid ≠ 0 then [Event.ptrace PTRACE_DETACH s.attached_tid] else [])
          ++ (if s.attached_pid ≠ 0 then [Event.ptrace PTRACE_DETACH s.attached_pid] else [])
          ++ (if s.stopped_pid ≠ 0 then [Event.kill s.stopped_pid SIGCONT] else [])
          ++ [if signum = SIGSEGV then Event.null_write else Event.exit 1]
    ∧ (∀ P : Int, P ≠ 0 → s.attached_tid = 0 → s.attached_pid = P → s.stopped_pid = P →
        (quit_handler k signum s).trace =
          s.trace ++ [Event.ptrace PTRACE_DETACH P, Event.kill P SIGCONT,
                      if signum = SIGSEGV then Event.null_write else Event.exit 1]) := by
  have key : (quit_handler k signum s).trace =
        s.trace
          ++ (if s.attached_tid ≠ 0 then [Event.ptrace PTRACE_DETACH s.attached_tid] else [])
          ++ (if s.attached_pid ≠ 0 then [Event.ptrace PTRACE_DETACH s.attached_pid] else [])
          ++ (if s.stopped_pid ≠ 0 then [Event.kill s.stopped_pid SIGCONT] else [])
          ++ [if signum = SIGSEGV then Event.null_write else Event.exit 1] := by
    unfold quit_handler call
    by_cases h1 : s.attached_tid = 0 <;> by_cases h2 : s.attached_pid = 0 <;>
      by_cases h3 : s.stopped_pid = 0 <;> by_cases h4 : signum = SIGSEGV <;>
      simp [h1, h2, h3, h4]
  refine ⟨key, ?_⟩
  intro P hP ht hp hs
  rw [key]
  subst hp
  simp [ht, hs, hP]


theorem sleeps_until_spec (T t0 : Int) :
    T < t0 + SLEEP_WAIT * (sleeps_until T t0 : Nat) ∧
      ∀ j : Nat, j < sleeps_until T t0 → t0 + SLEEP_WAIT * (j : Int) ≤ T := by
  unfold sleeps_until SLEEP_WAIT
  by_cases hc : t0 > T
  · simp only [if_pos hc]; constructor
    · simp; omega
    · intro j hj; omega
  · simp only [if_neg hc]; constructor
    · omega
    · intro j hj; omega

/-- C6 (as amended): with a stop timeout `T`, `0 < T ≤ INT_MAX - SLEEP_WAIT`, any
`int` values of the wait counters and a target whose probe always reports
running, `wait_thread` returns `-1` at probe number `m + 1`, where `m` is the
number of sleeps after which the accumulated wait first exceeds `T`: with fuel
for `m` probes or fewer it is still running, with more it has returned `-1`,
having called exactly probe, (sleep `SLEEP_WAIT`, probe) `m` times, and added
`SLEEP_WAIT * m` to `sleep_time` and `m` to `sleep_count`.  The accumulated
wait exceeds `T` at that probe and at none before it.  With `T = 0` the call
never returns, whatever the fuel. -/
theorem wait_thread_timeout (k : Kernel) (tid : Int)
    (hk : ∀ t, k t (.proc_stopped tid) = 0) :
    (∀ (T : Int) (s : State), 0 < T → T ≤ INT_MAX - SLEEP_WAIT →
        INT_MIN ≤ s.sleep_time → INT_MIN ≤ s.sleep_count → s.sleep_count ≤ INT_MAX →
        (∀ fuel, sleeps_until T s.sleep_time < fuel →
          wait_thread k T tid fuel s = some (-1,
            { s with sleep_time := s.sleep_time + SLEEP_WAIT * (sleeps_until T s.sleep_time : Nat),
                     sleep_count := wrap_int (s.sleep_count + (sleeps_until T s.sleep_time : Nat)),
                     trace := s.trace ++ poll_trace tid (sleeps_until T s.sleep_time) }))
        ∧ (∀ fuel, fuel ≤ sleeps_until T s.sleep_time → wait_thread k T tid fuel s = none)
        ∧ T < s.sleep_time + SLEEP_WAIT * (sleeps_until T s.sleep_time : Nat)
        ∧ (∀ j : Nat, j < sleeps_until T s.sleep_time → s.sleep_time + SLEEP_WAIT * (j : Int) ≤ T))
    ∧ (∀ (fuel : Nat) (s : State), wait_thread k 0 tid fuel s = none) := by
  refine ⟨?_, wait_thread_unbounded k tid hk⟩
  intro T s hT0 hT h1 h2 h3
  refine ⟨?_, ?_, (sleeps_until_spec T s.sleep_time).1, (sleeps_until_spec T s.sleep_time).2⟩
  · intro fuel hf
    exact wait_thread_times_out k tid T hk hT0 hT _ s rfl h1 h2 h3 fuel hf
  · intro fuel hf
    exact wait_thread_needs_fuel k tid T hk hT fuel s hf h1

/-- Witness of C6: a timeout of 1000 us from fresh counters; the fourth probe,
after three sleeps, fails. -/
theorem wait_thread_timeout_witness :
    wait_thread kernel_running 1000 7 4 State.init = some (-1,
      { State.init with sleep_time := 1500, sleep_count := 3,
                        trace := poll_trace 7 3 })
    ∧ wait_thread kernel_running 1000 7 3 State.init = none
    ∧ wait_thread kernel_running 0 7 50 State.init = none := by
  have h := wait_thread_timeout kernel_running 7 (fun _ => rfl)
  have h1 := h.1 1000 State.init (by decide) (by decide) (by decide) (by decide) (by decide)
  have e : sleeps_until 1000 State.init.sleep_time = 3 := by decide
  rw [e] at h1
  refine ⟨?_, h1.2.1 3 (le_refl _), h.2 50 State.init⟩
  have := h1.1 4 (by decide)
  rw [this]
  decide

/-- C6, counterexample: with `stop_timeout = INT_MAX` and a target that never
stops, `wait_thread` never returns, since no `int` exceeds `INT_MAX`. -/
theorem wait_thread_timeout_counterexample :
    ¬ ∃ (fuel : Nat) (r : Int × State),
        wait_thread kernel_running 2147483647 1 fuel State.init = some r := by
  rintro ⟨fuel, r, h⟩
  have := wait_thread_int_max kernel_running 1 (fun _ => rfl) fuel State.init (by decide)
  unfold INT_MAX at this
  rw [this] at h
  exact Option.noConfusion h

theorem detach_process_state (k : Kernel) (pid : Int) (s : State) :
    (detach_process k pid s).2.attached_pid = 0 ∧
      (detach_process k pid s).2.stopped_pid = s.stopped_pid := by
  simp [detach_process, call]

theorem attach_process_stopped (k : Kernel) (pid : Int) (s : State)
    (h : (attach_process k pid s).1 = 0) : (attach_process k pid s).2.stopped_pid = pid := by
  unfold attach_process attach_process_stop at *
  simp only [call] at *
  split_ifs at h ⊢ <;> simp_all

/-- After `attach_process pid` followed by `detach_process pid`,
`attached_pid` is 0, and after `attach_thread tid` followed by
`detach_thread tid`, `attached_tid` is 0, from every state and whatever the
calls return. -/
theorem detach_clears_attached (k : Kernel) (s : State) :
    (∀ pid : Int,
        (detach_process k pid (attach_process k pid s).2).2.attached_pid = 0)
    ∧ (∀ (tid stop_timeout : Int) (fuel : Nat) (r : Int) (s1 : State),
        attach_thread k stop_timeout tid fuel s = some (r, s1) →
        (detach_thread k tid s1).2.attached_tid = 0) := by
  constructor
  · intro pid
    exact (detach_process_state k pid (attach_process k pid s).2).1
  · intro tid T fuel r s1 _
    unfold detach_thread call
    simp only
    split_ifs <;> rfl

/-- C9: process 1234 is attached and then detached, both with success, from the
initial state and under a kernel whose calls all succeed.  `attached_pid` is 0
again, but `stopped_pid` is still 1234, although `detach_process` has sent
`SIGCONT`: `detach_process` resets `attached_pid` and `detach_thread` resets
`attached_tid`, and nothing resets `stopped_pid`.  A `quit_handler` that runs
afterwards sends `SIGCONT` to the detached process again. -/
theorem stopped_pid_not_cleared :
    (attach_process kernel_ok 1234 State.init).1 = 0
    ∧ (detach_process kernel_ok 1234 (attach_process kernel_ok 1234 State.init).2).1 = 0
    ∧ (detach_process kernel_ok 1234 (attach_process kernel_ok 1234 State.init).2).2.attached_pid
        = 0
    ∧ (detach_process kernel_ok 1234 (attach_process kernel_ok 1234 State.init).2).2.stopped_pid
        = 1234
    ∧ (quit_handler kernel_ok SIGSEGV
        (detach_process kernel_ok 1234 (attach_process kernel_ok 1234 State.init).2).2).trace
      = (detach_process kernel_ok 1234 (attach_process kernel_ok 1234 State.init).2).2.trace
          ++ [Event.kill 1234 SIGCONT, Event.null_write] := by
  decide

/-- Witness of C1: process 42 attached and stopped, handler run for `SIGSEGV`. -/
theorem quit_handler_trace_witness :
    (quit_handler kernel_ok SIGSEGV
        { State.init with attached_pid := 42, stopped_pid := 42 }).trace
      = [Event.ptrace PTRACE_DETACH 42, Event.kill 42 SIGCONT, Event.null_write] :=
  (quit_handler_trace kernel_ok SIGSEGV
    { State.init with attached_pid := 42, stopped_pid := 42 }).2 42 (by decide) rfl rfl rfl

/-! ## Properties of the bulk-copy reader -/

theorem to_ssize_t_of_range (x : Int) (h1 : -9223372036854775808 ≤ x)
    (h2 : x < 9223372036854775808) : to_ssize_t x = x := by
  unfold to_ssize_t; omega

theorem to_ssize_t_add (a b : Int) : to_ssize_t (to_ssize_t a + b) = to_ssize_t (a + b) := by
  unfold to_ssize_t; omega

theorem to_ssize_t_range (x : Int) :
    -9223372036854775808 ≤ to_ssize_t x ∧ to_ssize_t x < 9223372036854775808 := by
  unfold to_ssize_t; omega

theorem to_ssize_t_idem (x : Int) : to_ssize_t (to_ssize_t x) = to_ssize_t x := by
  unfold to_ssize_t; omega

theorem prefix_length_zero (frames : List mem_data_chunk) : prefix_length frames 0 = 0 := by
  simp [prefix_length]

theorem prefix_length_cons (f : mem_data_chunk) (fs : List mem_data_chunk) (k : Nat) :
    prefix_length (f :: fs) (k + 1) = f.length + prefix_length fs k := by
  simp [prefix_length]

theorem prefix_length_succ (frames : List mem_data_chunk) :
    ∀ (i : Nat) (hi : i < frames.length),
      prefix_length frames (i + 1) = prefix_length frames i + (frames.get ⟨i, hi⟩).length := by
  induction frames with
  | nil => intro i hi; simp at hi
  | cons f fs ih =>
    intro i hi
    cases i with
    | zero => simp [prefix_length]
    | succ i =>
      rw [prefix_length_cons, prefix_length_cons, ih i (by simpa using hi)]
      simp only [List.get_eq_getElem, List.getElem_cons_succ]
      omega

theorem prefix_length_all (frames : List mem_data_chunk) (k : Nat) (h : frames.length ≤ k) :
    prefix_length frames k = total_bytes frames := by
  simp [prefix_length, total_bytes, List.take_of_length_le h]

theorem prefix_length_le_total (frames : List mem_data_chunk) (k : Nat) :
    prefix_length frames k ≤ total_bytes frames := by
  induction frames generalizing k with
  | nil => simp [prefix_length, total_bytes]
  | cons f fs ih =>
    cases k with
    | zero => simp [prefix_length]
    | succ k =>
      rw [prefix_length_cons]
      have := ih k
      simp only [total_bytes, List.map_cons, List.sum_cons] at *
      omega

theorem prefix_length_step (frames : List mem_data_chunk) (hpos : ∀ f ∈ frames, 0 < f.length) :
    ∀ k, k < frames.length → prefix_length frames k < prefix_length frames (k + 1) := by
  induction frames with
  | nil => intro k hk; simp at hk
  | cons f fs ih =>
    intro k hk
    cases k with
    | zero =>
      rw [prefix_length_cons, prefix_length_zero, prefix_length_zero]
      have := hpos f (List.mem_cons_self _ _)
      omega
    | succ k =>
      rw [prefix_length_cons, prefix_length_cons]
      have := ih (fun g hg => hpos g (List.mem_cons_of_mem _ hg)) k (by simpa using hk)
      omega

theorem prefix_length_strict (frames : List mem_data_chunk) (hpos : ∀ f ∈ frames, 0 < f.length)
    (a b : Nat) (hab : a < b) (hb : b ≤ frames.length) :
    prefix_length frames a < prefix_length frames b := by
  induction b with
  | zero => omega
  | succ b ih =>
    have hs := prefix_length_step frames hpos b (by omega)
    by_cases h : a = b
    · subst h; exact hs
    · have := ih (by omega) (by omega); omega

theorem frame_bytes_from_length (frames : List mem_data_chunk) :
    ∀ b, (frame_bytes_from b frames).length = frames.length := by
  induction frames with
  | nil => intro b; rfl
  | cons f fs ih => intro b; simp [frame_bytes_from, ih]

theorem frame_bytes_from_get (frames : List mem_data_chunk) :
    ∀ (b : Int) (i : Nat), i < frames.length →
      (frame_bytes_from b frames)[i]? = some (to_ssize_t (b + prefix_length frames (i + 1))) := by
  induction frames with
  | nil => intro b i hi; simp at hi
  | cons f fs ih =>
    intro b i hi
    cases i with
    | zero => simp [frame_bytes_from, prefix_length]
    | succ i =>
      simp only [frame_bytes_from, List.getElem?_cons_succ]
      rw [ih _ i (by simpa using hi), to_ssize_t_add, prefix_length_cons]
      congr 2
      push_cast
      omega

theorem frame_bytes_get (frames : List mem_data_chunk) (i : Nat) (hi : i < frames.length) :
    (frame_bytes frames)[i]? = some (to_ssize_t (prefix_length frames (i + 1))) := by
  unfold frame_bytes
  rw [frame_bytes_from_get frames 0 i hi]
  simp

theorem find_boundary_eq (fb : List Int) (b : Int) (m : Nat) (hm : fb[m]? = some b) :
    ∀ i, m < i → (∀ j, m < j → j < i → fb[j]? ≠ some b) → find_boundary fb b i = m := by
  intro i
  induction i with
  | zero => intro h; omega
  | succ i ih =>
    intro hmi hno
    unfold find_boundary
    by_cases h : m = i
    · subst h; simp [hm]
    · rw [if_neg (hno i (by omega) (by omega))]
      exact ih (by omega) (fun j h1 h2 => hno j h1 (by omega))

theorem find_boundary_spec (fb : List Int) (b : Int) :
    ∀ i, find_boundary fb b i = -1 ∨
      ∃ m : Nat, m < i ∧ find_boundary fb b i = m ∧ fb[m]? = some b := by
  intro i
  induction i with
  | zero => left; rfl
  | succ i ih =>
    unfold find_boundary
    by_cases h : fb[i]? = some b
    · right; exact ⟨i, by omega, by simp [h], h⟩
    · rw [if_neg h]
      rcases ih with h1 | ⟨m, hm, h1, h2⟩
      · left; exact h1
      · right; exact ⟨m, by omega, h1, h2⟩

theorem frame_bytes_mem (frames : List mem_data_chunk) (e : Int)
    (he : e ∈ frame_bytes frames) :
    ∃ i, i < frames.length ∧ e = to_ssize_t (prefix_length frames (i + 1)) := by
  obtain ⟨i, hi⟩ := List.mem_iff_getElem?.mp he
  have hlt : i < frames.length := by
    have := (List.getElem?_eq_some.mp hi).1
    rwa [frame_bytes, frame_bytes_from_length] at this
  rw [frame_bytes_get frames i hlt] at hi
  exact ⟨i, hlt, (Option.some.inj hi).symm⟩

/-- The boundary search finds request `k - 1` when the cumulative count is the
sum of the first `k` lengths as a `ssize_t` holds it, for requests whose
lengths sum to at most `2^64`. -/
theorem find_boundary_wrapped (frames : List mem_data_chunk)
    (hpos : ∀ f ∈ frames, 0 < f.length) (htot : total_bytes frames ≤ 18446744073709551616)
    (k : Nat) (hk1 : 1 ≤ k) (hkn : k ≤ frames.length) :
    find_boundary (frame_bytes frames) (to_ssize_t (prefix_length frames k)) frames.length
      = ((k - 1 : Nat) : Int) := by
  apply find_boundary_eq
  · rw [frame_bytes_get frames (k - 1) (by omega)]
    have e : k - 1 + 1 = k := by omega
    rw [e]
  · omega
  · intro j hj1 hj2
    rw [frame_bytes_get frames j hj2]
    have h0 := prefix_length_strict frames hpos 0 k (by omega) hkn
    rw [prefix_length_zero] at h0
    have h1 := prefix_length_strict frames hpos k (j + 1) (by omega) (by omega)
    have h2 := prefix_length_le_total frames (j + 1)
    intro h
    have h3 := Option.some.inj h
    unfold to_ssize_t at h3
    omega

/-- The boundary search finds request `k - 1` when the cumulative count is the
sum of the first `k` lengths. -/
theorem find_boundary_prefix (frames : List mem_data_chunk)
    (hpos : ∀ f ∈ frames, 0 < f.length) (htot : total_bytes frames < 18446744073709551616)
    (k : Nat) (hk1 : 1 ≤ k) (hkn : k ≤ frames.length)
    (hk : (prefix_length frames k : Int) < 9223372036854775808) :
    find_boundary (frame_bytes frames) (prefix_length frames k) frames.length = ((k - 1 : Nat) : Int) := by
  have h := find_boundary_wrapped frames hpos (by omega) k hk1 hkn
  rwa [to_ssize_t_of_range _ (by omega) hk] at h

theorem readv_loop_off_boundary {W : Type} (readv : W → List iovec → List iovec → Int × W)
    (frames : List mem_data_chunk) :
    ∀ (fuel : Nat) (seg bt : Int) (tl : Nat) (w : W) (j : Nat) (c : ReadvCall),
      (readv_loop readv frames fuel seg bt tl w).calls[j]? = some c →
      (∀ e ∈ frame_bytes frames, e ≠ c.bytes_total) →
      (readv_loop readv frames fuel seg bt tl w).rc = some (-1) ∧
        (readv_loop readv frames fuel seg bt tl w).calls.length = j + 1 := by
  intro fuel
  induction fuel with
  | zero => intro seg bt tl w j c hc; simp [readv_loop] at hc
  | succ fuel ih =>
    intro seg bt tl w j c hc hno
    simp only [readv_loop] at hc ⊢
    generalize to_ssize_t (readv_call readv frames seg w).1 = br at hc ⊢
    generalize (readv_call readv frames seg w).2 = w1 at hc ⊢
    have hfb := find_boundary_spec (frame_bytes frames) (to_ssize_t (bt + br)) frames.length
    generalize find_boundary (frame_bytes frames) (to_ssize_t (bt + br)) frames.length = sg
      at hc hfb ⊢
    have hbad : j = 0 → 0 ≤ br → ¬ sg < 0 → False := by
      intro hj hbr hsg
      subst hj
      rcases hfb with h | ⟨m, _, _, hm⟩
      · omega
      · apply hno _ (List.getElem?_mem hm)
        rw [if_neg (by omega : ¬ br < 0)] at hc
        split_ifs at hc <;>
          simp only [List.getElem?_cons_zero, Option.some.injEq] at hc <;>
          rw [← hc] <;> rfl
    split_ifs at hc ⊢ with h1 h2 h3
    · cases j with
      | zero => simp
      | succ j => simp at hc
    · cases j with
      | zero => simp
      | succ j => simp at hc
    · cases j with
      | zero => exact (hbad rfl (by omega) h2).elim
      | succ j => simp at hc
    · cases j with
      | zero => exact (hbad rfl (by omega) h2).elim
      | succ j =>
        simp only [List.getElem?_cons_succ] at hc
        have := ih _ _ _ _ j c hc hno
        simp only [List.length_cons]
        exact ⟨this.1, by omega⟩

theorem readv_loop_sum {W : Type} (readv : W → List iovec → List iovec → Int × W)
    (frames : List mem_data_chunk) (htot : total_bytes frames < 9223372036854775808) :
    ∀ (fuel : Nat) (seg bt : Int) (tl : Nat) (w : W), 0 ≤ bt → bt < 9223372036854775808 →
      (readv_loop readv frames fuel seg bt tl w).rc = some 0 →
      bt + ((readv_loop readv frames fuel seg bt tl w).calls.map ReadvCall.bytes_read).sum
        = total_bytes frames := by
  intro fuel
  induction fuel with
  | zero => intro seg bt tl w _ _ h; simp [readv_loop] at h
  | succ fuel ih =>
    intro seg bt tl w hbt0 hbt1 hrc
    simp only [readv_loop] at hrc ⊢
    have hbr := to_ssize_t_range (readv_call readv frames seg w).1
    generalize to_ssize_t (readv_call readv frames seg w).1 = br at hrc hbr ⊢
    generalize (readv_call readv frames seg w).2 = w1 at hrc ⊢
    have hfb := find_boundary_spec (frame_bytes frames) (to_ssize_t (bt + br)) frames.length
    generalize find_boundary (frame_bytes frames) (to_ssize_t (bt + br)) frames.length = sg
      at hrc hfb ⊢
    split_ifs at hrc ⊢ with h1 h2 h3
    · simp at hrc
    · simp at hrc
    · rcases hfb with h | ⟨m, hm, hsg, hget⟩
      · omega
      · rw [frame_bytes_get frames m hm] at hget
        have hle := prefix_length_le_total frames (m + 1)
        have hall := prefix_length_all frames (m + 1) (by omega)
        rw [to_ssize_t_of_range _ (by omega) (by omega)] at hget
        have e := Option.some.inj hget
        simp only [call_record, List.map_cons, List.map_nil, List.sum_cons, List.sum_nil, add_zero]
        unfold to_ssize_t at e
        omega
    · rcases hfb with h | ⟨m, hm, hsg, hget⟩
      · omega
      · rw [frame_bytes_get frames m hm] at hget
        have hle := prefix_length_le_total frames (m + 1)
        rw [to_ssize_t_of_range _ (by omega) (by omega)] at hget
        have e := Option.some.inj hget
        have hP : to_ssize_t (bt + br) = bt + br := by
          have : (0 : Int) ≤ to_ssize_t (bt + br) := by rw [← e]; omega
          unfold to_ssize_t at this ⊢
          omega
        have := ih (sg + 1) (to_ssize_t (bt + br)) (to_size_t (to_ssize_t (bt + br))) w1
          (by rw [← e]; omega) (by rw [← e]; omega) hrc
        simp only [call_record, List.map_cons, List.sum_cons]
        omega

theorem readv_loop_head {W : Type} (readv : W → List iovec → List iovec → Int × W)
    (frames : List mem_data_chunk) (fuel : Nat) (seg bt : Int) (tl : Nat) (w : W) :
    ∃ br bt1, (readv_loop readv frames (fuel + 1) seg bt tl w).calls[0]?
      = some (call_record frames seg br bt1) := by
  simp only [readv_loop]
  split_ifs
  · exact ⟨to_ssize_t (readv_call readv frames seg w).1, bt, by simp⟩
  · exact ⟨to_ssize_t (readv_call readv frames seg w).1,
      to_ssize_t (bt + to_ssize_t (readv_call readv frames seg w).1), by simp⟩
  · exact ⟨to_ssize_t (readv_call readv frames seg w).1,
      to_ssize_t (bt + to_ssize_t (readv_call readv frames seg w).1), by simp⟩
  · exact ⟨to_ssize_t (readv_call readv frames seg w).1,
      to_ssize_t (bt + to_ssize_t (readv_call readv frames seg w).1), by simp⟩

theorem call_record_window (frames : List mem_data_chunk) (k : Nat) (br bt : Int) :
    (call_record frames k br bt).seg_count = k
    ∧ (call_record frames k br bt).frames_to_read = min ((frames.length : Int) - k) IOV_MAX
    ∧ (call_record frames k br bt).local_iov
        = ((local_iov frames).drop k).take (min ((frames.length : Int) - k) IOV_MAX).toNat
    ∧ (call_record frames k br bt).remote_iov
        = ((remote_iov frames).drop k).take (min ((frames.length : Int) - k) IOV_MAX).toNat := by
  have e : frames_to_read frames.length k = min ((frames.length : Int) - k) IOV_MAX := by
    unfold frames_to_read
    split_ifs <;> omega
  simp only [call_record, iov_window, e, Int.toNat_ofNat, and_self]

theorem readv_loop_resumes {W : Type} (readv : W → List iovec → List iovec → Int × W)
    (frames : List mem_data_chunk) (hpos : ∀ f ∈ frames, 0 < f.length)
    (htot : total_bytes frames ≤ 18446744073709551616)
    (k : Nat) (hk1 : 1 ≤ k) (hkn : k < frames.length) :
    ∀ (fuel : Nat) (seg bt : Int) (tl : Nat) (w : W) (j : Nat) (c : ReadvCall),
      (readv_loop readv frames fuel seg bt tl w).calls[j]? = some c →
      0 ≤ c.bytes_read →
      to_ssize_t c.bytes_total = to_ssize_t (prefix_length frames k) → j + 1 < fuel →
      ∃ br bt1, (readv_loop readv frames fuel seg bt tl w).calls[j + 1]?
        = some (call_record frames k br bt1) := by
  intro fuel
  induction fuel with
  | zero => intro seg bt tl w j c hc; simp [readv_loop] at hc
  | succ fuel ih =>
    intro seg bt tl w j c hc hr hb hf
    simp only [readv_loop] at hc ⊢
    generalize to_ssize_t (readv_call readv frames seg w).1 = br at hc ⊢
    generalize (readv_call readv frames seg w).2 = w1 at hc ⊢
    cases j with
    | zero =>
      by_cases h1 : br < 0
      · rw [if_pos h1] at hc
        simp only [List.getElem?_cons_zero, Option.some.injEq] at hc
        rw [← hc] at hr
        simp only [call_record] at hr
        omega
      · have hcb : to_ssize_t (bt + br) = to_ssize_t (prefix_length frames k) := by
          rw [if_neg h1] at hc
          rw [← to_ssize_t_idem (bt + br)]
          split_ifs at hc <;>
            simp only [List.getElem?_cons_zero, Option.some.injEq] at hc <;>
            rw [← hc] at hb <;> exact hb
        have hfind := find_boundary_wrapped frames hpos htot k hk1 (by omega)
        rw [hcb] at hc ⊢
        rw [hfind] at hc ⊢
        clear hcb hb
        rw [if_neg h1, if_neg (by omega), if_neg (by omega)]
        have e : (((k - 1 : Nat) : Int) + 1) = (k : Int) := by omega
        rw [e]
        obtain ⟨f, rfl⟩ : ∃ f, fuel = f + 1 := ⟨fuel - 1, by omega⟩
        simp only [List.getElem?_cons_succ]
        exact readv_loop_head readv frames f k _ _ w1
    | succ j =>
      split_ifs at hc ⊢ with h1 h2 h3
      · simp at hc
      · simp at hc
      · simp at hc
      · simp only [List.getElem?_cons_succ] at hc ⊢
        exact ih _ _ _ _ j c hc hr hb (by omega)

theorem covered_addresses (frames : List mem_data_chunk) (hdis : targets_disjoint frames) :
    ∃ s : Finset Nat, s.card = total_bytes frames
      ∧ ∀ a ∈ s, ∃ f ∈ frames, f.start ≤ a ∧ a < f.start + f.length := by
  induction frames with
  | nil => exact ⟨∅, rfl, fun a ha => by simp at ha⟩
  | cons f fs ih =>
    have hd := List.pairwise_cons.mp hdis
    obtain ⟨s, hcard, hs⟩ := ih hd.2
    have hdisj : Disjoint (Finset.Ico f.start (f.start + f.length)) s := by
      rw [Finset.disjoint_left]
      intro a ha has
      obtain ⟨g, hg, h1, h2⟩ := hs a has
      have := hd.1 g hg
      rw [Finset.mem_Ico] at ha
      omega
    refine ⟨Finset.Ico f.start (f.start + f.length) ∪ s, ?_, ?_⟩
    · rw [Finset.card_union_of_disjoint hdisj, Nat.card_Ico, hcard]
      simp only [total_bytes, List.map_cons, List.sum_cons]
      omega
    · intro a ha
      rcases Finset.mem_union.mp ha with h | h
      · rw [Finset.mem_Ico] at h
        exact ⟨f, List.mem_cons_self _ _, h.1, h.2⟩
      · obtain ⟨g, hg, h1, h2⟩ := hs a h
        exact ⟨g, List.mem_cons_of_mem _ hg, h1, h2⟩

/-- Requests for byte ranges of a 64-bit address space that do not overlap are
for at most `2^64` bytes in all. -/
theorem total_bytes_le_of_disjoint (frames : List mem_data_chunk)
    (hdis : targets_disjoint frames)
    (hspace : ∀ f ∈ frames, f.start + f.length ≤ 18446744073709551616) :
    total_bytes frames ≤ 18446744073709551616 := by
  obtain ⟨s, hcard, hs⟩ := covered_addresses frames hdis
  have hsub : s ⊆ Finset.range 18446744073709551616 := by
    intro a ha
    obtain ⟨f, hf, _, h2⟩ := hs a ha
    have := hspace f hf
    rw [Finset.mem_range]
    omega
  have := Finset.card_le_card hsub
  rw [Finset.card_range] at this
  omega

/-- C2: in `copy_memory_process_vm_readv`, for requests all of length > 0 whose
lengths sum to at most `2^64` (as they do for any byte ranges of the target's
64-bit address space that do not overlap, `total_bytes_le_of_disjoint`), and
`1 ≤ k < n`: when a bulk-copy call returns a non-negative count that brings
`bytes_total` to the sum of the lengths of requests `0..k-1` (equal as 64-bit
values, which is plain equality whenever the sum is below `2^63`), the next
bulk-copy call is made (with fuel for it), starts at `seg_count = k`, and is
passed `min (n - k) IOV_MAX` descriptors, those from index `k` on. -/
theorem readv_resumes_at_boundary {W : Type}
    (readv : W → List iovec → List iovec → Int × W)
    (frames : List mem_data_chunk) (hpos : ∀ f ∈ frames, 0 < f.length)
    (htot : total_bytes frames ≤ 18446744073709551616)
    (k : Nat) (hk1 : 1 ≤ k) (hkn : k < frames.length)
    (fuel : Nat) (total_length : Nat) (w : W) (j : Nat) (c : ReadvCall)
    (hc : (copy_memory_process_vm_readv readv frames fuel total_length w).calls[j]? = some c)
    (hr : 0 ≤ c.bytes_read)
    (hb : to_ssize_t c.bytes_total = to_ssize_t (prefix_length frames k))
    (hf : j + 1 < fuel) :
    ∃ c1 : ReadvCall,
      (copy_memory_process_vm_readv readv frames fuel total_length w).calls[j + 1]? = some c1
      ∧ c1.seg_count = k
      ∧ c1.frames_to_read = min ((frames.length : Int) - k) IOV_MAX
      ∧ c1.local_iov
          = ((local_iov frames).drop k).take (min ((frames.length : Int) - k) IOV_MAX).toNat
      ∧ c1.remote_iov
          = ((remote_iov frames).drop k).take (min ((frames.length : Int) - k) IOV_MAX).toNat := by
  unfold copy_memory_process_vm_readv at hc ⊢
  obtain ⟨br, bt1, h⟩ := readv_loop_resumes readv frames hpos htot k hk1 hkn fuel 0 0
    total_length w j c hc hr hb hf
  exact ⟨_, h, call_record_window frames k br bt1⟩

/-- Witness of C2: requests of 3, 5 and 2 bytes for disjoint ranges; the first
call returns 3 (the first request only), the second call starts at request 1
with 2 descriptors.  And a boundary past `2^63`: requests of `2^63 - 1`, 6 and
3 bytes; the second call brings the count to `2^63 + 5`, held as `-2^63 + 5`,
and the third call starts at request 2. -/
theorem readv_resumes_at_boundary_witness :
    (∃ c1 : ReadvCall,
      (copy_memory_process_vm_readv (scripted_readv fun i => if i = 0 then 3 else 7)
          frames_352 5 0 0).calls[1]? = some c1
      ∧ c1.seg_count = 1
      ∧ c1.frames_to_read = min (3 - 1) IOV_MAX
      ∧ c1.local_iov = [⟨200, 5⟩, ⟨300, 2⟩]
      ∧ c1.remote_iov = [⟨8192, 5⟩, ⟨12288, 2⟩])
    ∧ (∃ c2 : ReadvCall,
      (copy_memory_process_vm_readv (scripted_readv answers_past_half)
          frames_past_half 5 0 0).calls[2]? = some c2
      ∧ c2.seg_count = 2
      ∧ c2.frames_to_read = min (3 - 2) IOV_MAX
      ∧ c2.local_iov = [⟨9223372036854775814, 3⟩]
      ∧ c2.remote_iov = [⟨9223372036854775814, 3⟩]) :=
  ⟨readv_resumes_at_boundary (scripted_readv fun i => if i = 0 then 3 else 7) frames_352
    (by decide)
    (total_bytes_le_of_disjoint frames_352 (by unfold targets_disjoint; decide) (by decide))
    1 (by decide) (by decide) 5 0 0 0
    (call_record frames_352 0 3 3) (by decide) (by decide) (by decide) (by decide),
   readv_resumes_at_boundary (scripted_readv answers_past_half) frames_past_half
    (by decide)
    (total_bytes_le_of_disjoint frames_past_half (by unfold targets_disjoint; decide)
      (by decide))
    2 (by decide) (by decide) 5 0 0 1
    (call_record frames_past_half 1 6 (-9223372036854775803)) (by decide) (by decide)
    (by decide) (by decide)⟩

/-- Beyond `2^64` the table wraps onto itself: requests of 1, `2^64 - 1` and 1
bytes, which no 64-bit address space holds without overlap.  The first call
returns 1, the length of request 0, and the run ends there with success,
since the table entry of request 2 has wrapped to 1 as well. -/
theorem readv_table_wraps_past_address_space :
    (∀ f ∈ frames_wrap, 0 < f.length)
    ∧ ¬ total_bytes frames_wrap ≤ 18446744073709551616
    ∧ ((copy_memory_process_vm_readv (scripted_readv fun _ => 1) frames_wrap 5 0 0).calls[0]?.map
          ReadvCall.bytes_total = some ((prefix_length frames_wrap 1 : Nat) : Int))
    ∧ (copy_memory_process_vm_readv (scripted_readv fun _ => 1) frames_wrap 5 0 0).calls[1]? = none
    ∧ (copy_memory_process_vm_readv (scripted_readv fun _ => 1) frames_wrap 5 0 0).rc = some 0 := by
  decide

/-- C3 (as amended): for requests whose lengths sum to less than `2^63`, in
every run of `copy_memory_process_vm_readv`, in every environment: when
`bytes_total` after a bulk-copy call equals none of the prefix sums of the
request lengths (the sum of the lengths of requests `0..i`, for each `i`), the
run returns `-1` and that call is its last. -/
theorem readv_fails_off_boundary {W : Type}
    (readv : W → List iovec → List iovec → Int × W)
    (frames : List mem_data_chunk) (htot : total_bytes frames < 9223372036854775808)
    (fuel : Nat) (total_length : Nat) (w : W)
    (j : Nat) (c : ReadvCall)
    (hc : (copy_memory_process_vm_readv readv frames fuel total_length w).calls[j]? = some c)
    (hno : ∀ i, i < frames.length → c.bytes_total ≠ ((prefix_length frames (i + 1) : Nat) : Int)) :
    (copy_memory_process_vm_readv readv frames fuel total_length w).rc = some (-1)
    ∧ (copy_memory_process_vm_readv readv frames fuel total_length w).calls.length = j + 1 := by
  apply readv_loop_off_boundary readv frames fuel 0 0 total_length w j c hc
  intro e he
  obtain ⟨i, hi, hi2⟩ := frame_bytes_mem frames e he
  have hle := prefix_length_le_total frames (i + 1)
  rw [hi2, to_ssize_t_of_range _ (by omega) (by omega)]
  exact fun h => hno i hi h.symm

/-- Witness of C3: requests of 3, 5 and 2 bytes; the first call returns 3, the
second 4, which ends inside request 1. -/
theorem readv_fails_off_boundary_witness :
    (copy_memory_process_vm_readv (scripted_readv fun i => if i = 0 then 3 else 4)
        frames_352 5 0 0).rc = some (-1)
    ∧ (copy_memory_process_vm_readv (scripted_readv fun i => if i = 0 then 3 else 4)
        frames_352 5 0 0).calls.length = 1 + 1 :=
  readv_fails_off_boundary (scripted_readv fun i => if i = 0 then 3 else 4) frames_352
    (by decide) 5 0 0 1
    (call_record frames_352 1 4 7) (by decide) (by decide)

/-- C3, counterexample: two requests of `2^63` bytes for the two halves of the
address space, with disjoint buffers.  Their prefix sums are `2^63` and
`2^64`, and the table holds `-2^63` and 0.  The first call returns 0: the
cumulative count, 0, is neither prefix sum, and the run returns success. -/
theorem readv_fails_off_boundary_counterexample :
    targets_disjoint frames_halves ∧ buffers_disjoint frames_halves
    ∧ (copy_memory_process_vm_readv (scripted_readv fun _ => 0) frames_halves 5 0 0).calls[0]?.map
          ReadvCall.bytes_total = some 0
    ∧ (∀ i, i < frames_halves.length →
        (0 : Int) ≠ ((prefix_length frames_halves (i + 1) : Nat) : Int))
    ∧ (copy_memory_process_vm_readv (scripted_readv fun _ => 0) frames_halves 5 0 0).rc
        = some 0 := by
  refine ⟨by unfold targets_disjoint; decide, by unfold buffers_disjoint; decide, by decide,
    ?_, by decide⟩
  intro i hi
  have : i = 0 ∨ i = 1 := by
    have : i < 2 := hi
    omega
  rcases this with rfl | rfl <;> decide

/-- The bound of C3 cannot be `2^64`: requests of `2^63 - 1`, 6 and 3 bytes
with disjoint ranges and buffers.  The calls return `2^63 - 1`, 6 and 3; after
the second, `bytes_total` has wrapped to `-2^63 + 5`, the table entry of
request 1 and no prefix sum, and the run goes on to a third call and returns
success. -/
theorem readv_count_wraps_past_half :
    (copy_memory_process_vm_readv (scripted_readv answers_past_half)
        frames_past_half 5 0 0).calls[1]?.map ReadvCall.bytes_total
      = some (-9223372036854775803)
    ∧ (copy_memory_process_vm_readv (scripted_readv answers_past_half)
        frames_past_half 5 0 0).calls.length = 3
    ∧ (copy_memory_process_vm_readv (scripted_readv answers_past_half)
        frames_past_half 5 0 0).rc = some 0 := by
  decide

/-- C4 (as amended): for requests whose lengths sum to less than `2^63`, entry
`i` of `frame_bytes` is the sum of the lengths of requests `0..i`, the
difference between entry `i` and the entry before it (0 before the first) is
the length of request `i`, and in every environment a run of
`copy_memory_process_vm_readv` that returns 0 has received from its bulk-copy
calls byte counts that sum to the lengths of all requests. -/
theorem frame_bytes_cumulative (frames : List mem_data_chunk)
    (htot : total_bytes frames < 9223372036854775808) :
    (∀ i, i < frames.length →
        (frame_bytes frames)[i]? = some ((prefix_length frames (i + 1) : Nat) : Int))
    ∧ (∀ (i : Nat) (hi : i < frames.length),
        (frame_bytes frames).getD i 0 - (if i = 0 then 0 else (frame_bytes frames).getD (i - 1) 0)
          = ((frames.get ⟨i, hi⟩).length : Int))
    ∧ (∀ (W : Type) (readv : W → List iovec → List iovec → Int × W)
        (fuel total_length : Nat) (w : W),
        (copy_memory_process_vm_readv readv frames fuel total_length w).rc = some 0 →
        ((copy_memory_process_vm_readv readv frames fuel total_length w).calls.map
            ReadvCall.bytes_read).sum = (total_bytes frames : Int)) := by
  have hget : ∀ i, i < frames.length →
      (frame_bytes frames)[i]? = some ((prefix_length frames (i + 1) : Nat) : Int) := by
    intro i hi
    rw [frame_bytes_get frames i hi]
    have := prefix_length_le_total frames (i + 1)
    rw [to_ssize_t_of_range _ (by omega) (by omega)]
  refine ⟨hget, ?_, ?_⟩
  · intro i hi
    have hstep := prefix_length_succ frames i hi
    simp only [List.getD_eq_getElem?_getD, hget i hi, Option.getD_some]
    by_cases h0 : i = 0
    · subst h0
      simp only [if_true, hstep, prefix_length_zero]
      omega
    · rw [if_neg h0, hget (i - 1) (by omega)]
      have e : i - 1 + 1 = i := by omega
      simp only [Option.getD_some, e, hstep]
      omega
  · intro W readv fuel tl w hrc
    have := readv_loop_sum readv frames htot fuel 0 0 tl w (le_refl _) (by decide) hrc
    simpa using this

/-- Witness of C4: requests of 3, 5 and 2 bytes, copied by calls that return 3
and then 7. -/
theorem frame_bytes_cumulative_witness :
    (frame_bytes frames_352)[1]? = some (((prefix_length frames_352 (1 + 1) : Nat)) : Int)
    ∧ ((copy_memory_process_vm_readv (scripted_readv fun i => if i = 0 then 3 else 7)
          frames_352 5 0 0).calls.map ReadvCall.bytes_read).sum = (total_bytes frames_352 : Int) :=
  ⟨(frame_bytes_cumulative frames_352 (by decide)).1 1 (by decide),
   (frame_bytes_cumulative frames_352 (by decide)).2.2 Nat
      (scripted_readv fun i => if i = 0 then 3 else 7) 5 0 0 (by decide)⟩

/-- C4, counterexample: one request of `2^63` bytes; its table entry is
`-2^63`, not its length. -/
theorem frame_bytes_cumulative_counterexample :
    (frame_bytes [⟨4096, 100, 9223372036854775808⟩])[0]? = some (-9223372036854775808)
    ∧ ¬ ((frame_bytes [⟨4096, 100, 9223372036854775808⟩])[0]?
          = some ((prefix_length [⟨4096, 100, 9223372036854775808⟩] (0 + 1) : Nat) : Int)) := by
  decide

/-! ## The two strategies over a model of the target's memory -/

theorem copy_bytes_count (mem : TargetMemory) :
    ∀ (len src dst : Nat) (loc : LocalMemory),
      (∀ j, j < len → (mem (src + j)).isSome = true) →
      (copy_bytes mem len src dst loc).1 = len := by
  intro len
  induction len with
  | zero => intro src dst loc _; rfl
  | succ len ih =>
    intro src dst loc h
    have h0 := h 0 (by omega)
    simp only [add_zero] at h0
    obtain ⟨b, hb⟩ := Option.isSome_iff_exists.mp h0
    simp only [copy_bytes, hb]
    rw [ih (src + 1) (dst + 1) _ (fun j hj => by
      have := h (j + 1) (by omega)
      rwa [show src + (j + 1) = src + 1 + j by omega] at this)]

theorem copy_bytes_outside (mem : TargetMemory) :
    ∀ (len src dst : Nat) (loc : LocalMemory) (a : Nat), (a < dst ∨ dst + len ≤ a) →
      (copy_bytes mem len src dst loc).2 a = loc a := by
  intro len
  induction len with
  | zero => intro src dst loc a _; rfl
  | succ len ih =>
    intro src dst loc a ha
    simp only [copy_bytes]
    cases hb : mem src with
    | none => rfl
    | some b =>
      simp only
      rw [ih (src + 1) (dst + 1) _ a (by omega)]
      exact Function.update_noteq (by omega) _ _

theorem copy_bytes_inside (mem : TargetMemory) :
    ∀ (len src dst : Nat) (loc : LocalMemory),
      (∀ j, j < len → (mem (src + j)).isSome = true) →
      ∀ j, j < len → mem (src + j) = some ((copy_bytes mem len src dst loc).2 (dst + j)) := by
  intro len
  induction len with
  | zero => intro src dst loc _ j hj; omega
  | succ len ih =>
    intro src dst loc h j hj
    have h0 := h 0 (by omega)
    simp only [add_zero] at h0
    obtain ⟨b, hb⟩ := Option.isSome_iff_exists.mp h0
    have hrest : ∀ j, j < len → (mem (src + 1 + j)).isSome = true := fun j hj => by
      have := h (j + 1) (by omega)
      rwa [show src + (j + 1) = src + 1 + j by omega] at this
    simp only [copy_bytes, hb]
    cases j with
    | zero =>
      simp only [add_zero]
      rw [copy_bytes_outside mem len (src + 1) (dst + 1) _ dst (by omega)]
      simp [hb]
    | succ j =>
      have := ih (src + 1) (dst + 1) (Function.update loc dst b) hrest j (by omega)
      rw [show src + (j + 1) = src + 1 + j by omega, show dst + (j + 1) = dst + 1 + j by omega]
      exact this

theorem copy_all_cons (mem : TargetMemory) (f : mem_data_chunk) (fs : List mem_data_chunk)
    (loc : LocalMemory) :
    copy_all mem (f :: fs) loc = copy_all mem fs (copy_bytes mem f.length f.start f.data loc).2 :=
  rfl

theorem copy_all_append (mem : TargetMemory) (fs gs : List mem_data_chunk) (loc : LocalMemory) :
    copy_all mem (fs ++ gs) loc = copy_all mem gs (copy_all mem fs loc) := by
  simp [copy_all, List.foldl_append]

theorem all_readable_cons {mem : TargetMemory} {f : mem_data_chunk} {fs : List mem_data_chunk}
    (h : all_readable mem (f :: fs)) :
    (∀ j, j < f.length → (mem (f.start + j)).isSome = true) ∧ all_readable mem fs :=
  ⟨h f (List.mem_cons_self _ _), fun g hg => h g (List.mem_cons_of_mem _ hg)⟩

theorem bulk_copy_readable (mem : TargetMemory) :
    ∀ (fs : List mem_data_chunk) (loc : LocalMemory), all_readable mem fs →
      bulk_copy mem (local_iov fs) (remote_iov fs) loc
        = (total_bytes fs, false, copy_all mem fs loc) := by
  intro fs
  induction fs with
  | nil => intro loc _; rfl
  | cons f fs ih =>
    intro loc h
    obtain ⟨hf, hfs⟩ := all_readable_cons h
    have hc := copy_bytes_count mem f.length f.start f.data loc hf
    simp only [local_iov, remote_iov, List.map_cons, bulk_copy, hc, lt_self_iff_false,
      if_false]
    have := ih (copy_bytes mem f.length f.start f.data loc).2 hfs
    simp only [local_iov, remote_iov] at this
    rw [this]
    simp [total_bytes, copy_all_cons]

theorem process_vm_readv_readable (mem : TargetMemory) (fs : List mem_data_chunk)
    (loc : LocalMemory) (h : all_readable mem fs) :
    process_vm_readv mem loc (local_iov fs) (remote_iov fs)
      = ((total_bytes fs : Int), copy_all mem fs loc) := by
  simp [process_vm_readv, bulk_copy_readable mem fs loc h]

theorem copy_all_outside (mem : TargetMemory) :
    ∀ (fs : List mem_data_chunk) (loc : LocalMemory) (a : Nat),
      (∀ f ∈ fs, a < f.data ∨ f.data + f.length ≤ a) → copy_all mem fs loc a = loc a := by
  intro fs
  induction fs with
  | nil => intro loc a _; rfl
  | cons f fs ih =>
    intro loc a h
    rw [copy_all_cons, ih _ a (fun g hg => h g (List.mem_cons_of_mem _ hg))]
    exact copy_bytes_outside mem _ _ _ _ a (h f (List.mem_cons_self _ _))

theorem copy_all_buffers (mem : TargetMemory) :
    ∀ (fs : List mem_data_chunk) (loc : LocalMemory), all_readable mem fs →
      buffers_disjoint fs →
      ∀ f ∈ fs, ∀ j, j < f.length → mem (f.start + j) = some (copy_all mem fs loc (f.data + j)) := by
  intro fs
  induction fs with
  | nil => intro loc _ _ f hf; simp at hf
  | cons g gs ih =>
    intro loc hr hd f hf j hj
    obtain ⟨hg, hgs⟩ := all_readable_cons hr
    have hd' := List.pairwise_cons.mp hd
    rw [copy_all_cons]
    rcases List.mem_cons.mp hf with rfl | hmem
    · rw [copy_all_outside mem gs _ (f.data + j) (fun h hh => by
        have := hd'.1 h hh
        omega)]
      exact copy_bytes_inside mem _ _ _ loc hg j hj
    · exact ih _ hgs hd'.2 f hmem j hj

theorem iov_window_local (frames : List mem_data_chunk) (s c : Nat) :
    iov_window (local_iov frames) s c = local_iov ((frames.drop s).take c) := by
  simp [iov_window, local_iov, List.map_take, List.map_drop]

theorem iov_window_remote (frames : List mem_data_chunk) (s c : Nat) :
    iov_window (remote_iov frames) s c = remote_iov ((frames.drop s).take c) := by
  simp [iov_window, remote_iov, List.map_take, List.map_drop]

theorem frames_to_read_eq (n s : Nat) (h : s ≤ n) :
    frames_to_read n s = ((min (n - s) 1024 : Nat) : Int) := by
  unfold frames_to_read IOV_MAX
  split_ifs <;> omega

theorem all_readable_window {mem : TargetMemory} {frames : List mem_data_chunk}
    (h : all_readable mem frames) (s c : Nat) :
    all_readable mem ((frames.drop s).take c) :=
  fun f hf => h f (List.mem_of_mem_drop (List.mem_of_mem_take hf))

theorem prefix_length_add (frames : List mem_data_chunk) (s c : Nat) :
    prefix_length frames (s + c)
      = prefix_length frames s + total_bytes ((frames.drop s).take c) := by
  simp [prefix_length, total_bytes, List.take_add]

theorem readv_call_readable (mem : TargetMemory) (frames : List mem_data_chunk)
    (hread : all_readable mem frames) (s : Nat) (hs : s ≤ frames.length) (w : LocalMemory) :
    readv_call (process_vm_readv mem) frames s w
      = ((total_bytes ((frames.drop s).take (min (frames.length - s) 1024)) : Int),
         copy_all mem ((frames.drop s).take (min (frames.length - s) 1024)) w) := by
  unfold readv_call
  rw [frames_to_read_eq _ _ hs, iov_window_local, iov_window_remote]
  exact process_vm_readv_readable mem _ w (all_readable_window hread _ _)

theorem readv_loop_readable (mem : TargetMemory) (frames : List mem_data_chunk)
    (hpos : ∀ f ∈ frames, 0 < f.length) (htot : total_bytes frames < 9223372036854775808)
    (hread : all_readable mem frames) (loc0 : LocalMemory) :
    ∀ (fuel s tl : Nat), s < frames.length → frames.length - s ≤ fuel →
      (readv_loop (process_vm_readv mem) frames fuel s (prefix_length frames s) tl
          (copy_all mem (frames.take s) loc0)).rc = some 0
      ∧ (readv_loop (process_vm_readv mem) frames fuel s (prefix_length frames s) tl
          (copy_all mem (frames.take s) loc0)).world = copy_all mem frames loc0
      ∧ (readv_loop (process_vm_readv mem) frames fuel s (prefix_length frames s) tl
          (copy_all mem (frames.take s) loc0)).total_length = total_bytes frames := by
  intro fuel
  induction fuel with
  | zero => intro s tl hs hf; omega
  | succ fuel ih =>
    intro s tl hs hf
    have hcall := readv_call_readable mem frames hread s (by omega)
    obtain ⟨c, hc⟩ : ∃ c, c = min (frames.length - s) 1024 := ⟨_, rfl⟩
    rw [← hc] at hcall
    have hc1 : 1 ≤ c := by omega
    have hc2 : s + c ≤ frames.length := by omega
    clear hc
    have hadd := prefix_length_add frames s c
    have hle := prefix_length_le_total frames (s + c)
    have b1 : (-9223372036854775808 : Int) ≤ (total_bytes ((frames.drop s).take c) : Nat) := by
      omega
    have b2 : ((total_bytes ((frames.drop s).take c) : Nat) : Int) < 9223372036854775808 := by
      omega
    have b3 : (-9223372036854775808 : Int)
        ≤ (prefix_length frames s : Int) + (total_bytes ((frames.drop s).take c) : Nat) := by
      omega
    have b4 : (prefix_length frames s : Int) + (total_bytes ((frames.drop s).take c) : Nat)
        < 9223372036854775808 := by
      omega
    have b5 : (prefix_length frames (s + c) : Int) < 9223372036854775808 := by omega
    have b6 : total_bytes frames < 18446744073709551616 := by omega
    have hfind := find_boundary_prefix frames hpos b6 (s + c) (by omega) hc2 b5
    have hbr : to_ssize_t ((total_bytes ((frames.drop s).take c) : Nat) : Int)
        = (total_bytes ((frames.drop s).take c) : Nat) :=
      to_ssize_t_of_range _ b1 b2
    have hbt : to_ssize_t ((prefix_length frames s : Int)
          + (total_bytes ((frames.drop s).take c) : Nat))
        = (prefix_length frames (s + c) : Nat) := by
      rw [to_ssize_t_of_range _ b3 b4, hadd]
      push_cast
      rfl
    have happ : copy_all mem ((frames.drop s).take c) (copy_all mem (frames.take s) loc0)
        = copy_all mem (frames.take (s + c)) loc0 := by
      rw [List.take_add frames s c, copy_all_append]
    simp only [readv_loop, hcall, hbr, hbt, hfind, happ]
    clear hbr hbt hfind
    rw [if_neg (by omega), if_neg (by omega)]
    by_cases hend : s + c = frames.length
    · rw [if_pos (by omega)]
      simp only [true_and]
      rw [hend, List.take_length]
      refine ⟨rfl, ?_⟩
      rw [prefix_length_all frames _ (le_refl _)]
      unfold to_size_t
      omega
    · rw [if_neg (by omega)]
      simp only
      have e : (((s + c - 1 : Nat) : Int) + 1) = ((s + c : Nat) : Int) := by omega
      rw [e]
      exact ih (s + c) _ (by omega) (by omega)

theorem proc_mem_loop_readable (mem : TargetMemory) :
    ∀ (fs : List mem_data_chunk) (tl pos : Nat) (loc : LocalMemory),
      (∀ f ∈ fs, 0 < f.length) → (∀ f ∈ fs, f.start < 9223372036854775808) →
      all_readable mem fs →
      (proc_mem_loop (mem_file mem) fs tl ⟨pos, loc⟩).1 = 0
      ∧ (proc_mem_loop (mem_file mem) fs tl ⟨pos, loc⟩).2.2.loc = copy_all mem fs loc := by
  intro fs
  induction fs with
  | nil => intro tl pos loc _ _ _; exact ⟨rfl, rfl⟩
  | cons f fs ih =>
    intro tl pos loc hpos hstart hread
    obtain ⟨hf, hfs⟩ := all_readable_cons hread
    have h1 := hpos f (List.mem_cons_self _ _)
    have h2 := hstart f (List.mem_cons_self _ _)
    have hs : to_ssize_t (f.start : Int) = f.start := to_ssize_t_of_range _ (by omega) (by omega)
    have hseek : (mem_file mem).fseek (to_ssize_t f.start) ⟨pos, loc⟩ = (0, ⟨f.start, loc⟩) := by
      simp [mem_file, hs]
    have hc := copy_bytes_count mem f.length f.start f.data loc hf
    have hread1 : (mem_file mem).fread f.data f.length ⟨f.start, loc⟩
        = (1, ⟨f.start + f.length, (copy_bytes mem f.length f.start f.data loc).2⟩) := by
      simp [mem_file, hc, Nat.pos_iff_ne_zero.mp h1]
    simp only [proc_mem_loop, hseek, hread1]
    rw [if_neg (by omega), if_neg (by simp)]
    rw [copy_all_cons]
    exact ih _ _ _ (fun g hg => hpos g (List.mem_cons_of_mem _ hg))
      (fun g hg => hstart g (List.mem_cons_of_mem _ hg)) hfs

/-- C5 (as amended): for a non-empty list of requests, each of length > 0 and
with a start address below `2^63`, whose lengths sum to less than `2^63`, with
pairwise disjoint destination buffers, and a target memory in which every
requested range is readable: `copy_memory_process_vm_readv` (given fuel for
one loop iteration per request) and `copy_memory_proc_mem` both return 0 and
leave the sampler's memory identical, and the buffer of every request holds
the target bytes at `[start, start + length)`. -/
theorem fallback_agrees_with_bulk_copy (mem : TargetMemory) (frames : List mem_data_chunk)
    (loc : LocalMemory) (pos tl1 tl2 fuel : Nat)
    (hne : frames ≠ []) (hpos : ∀ f ∈ frames, 0 < f.length)
    (hstart : ∀ f ∈ frames, f.start < 9223372036854775808)
    (htot : total_bytes frames < 9223372036854775808)
    (hread : all_readable mem frames) (hdis : buffers_disjoint frames)
    (hfuel : frames.length ≤ fuel) :
    (copy_memory_process_vm_readv (process_vm_readv mem) frames fuel tl1 loc).rc = some 0
    ∧ (copy_memory_proc_mem (mem_file mem) frames tl2 ⟨pos, loc⟩).1 = 0
    ∧ (copy_memory_process_vm_readv (process_vm_readv mem) frames fuel tl1 loc).world
        = (copy_memory_proc_mem (mem_file mem) frames tl2 ⟨pos, loc⟩).2.2.loc
    ∧ (∀ f ∈ frames, ∀ j, j < f.length →
        mem (f.start + j)
          = some ((copy_memory_process_vm_readv (process_vm_readv mem) frames fuel tl1 loc).world
              (f.data + j))) := by
  have hlen : 0 < frames.length := List.length_pos.mpr hne
  have hv := readv_loop_readable mem frames hpos htot hread loc fuel 0 tl1 hlen (by omega)
  simp only [List.take_zero, prefix_length_zero] at hv
  have hv' : (copy_memory_process_vm_readv (process_vm_readv mem) frames fuel tl1 loc).rc = some 0
      ∧ (copy_memory_process_vm_readv (process_vm_readv mem) frames fuel tl1 loc).world
          = copy_all mem frames loc := ⟨hv.1, hv.2.1⟩
  have hp := proc_mem_loop_readable mem frames tl2 pos loc hpos hstart hread
  have hp' : (copy_memory_proc_mem (mem_file mem) frames tl2 ⟨pos, loc⟩).1 = 0
      ∧ (copy_memory_proc_mem (mem_file mem) frames tl2 ⟨pos, loc⟩).2.2.loc
          = copy_all mem frames loc := by
    have hopen : (mem_file mem).fopen ⟨pos, loc⟩ = (true, ⟨pos, loc⟩) := rfl
    have hclose : ∀ w, (mem_file mem).fclose w = w := fun _ => rfl
    simp only [copy_memory_proc_mem, hopen, hclose]
    exact hp
  refine ⟨hv'.1, hp'.1, by rw [hv'.2, hp'.2], ?_⟩
  intro f hf j hj
  rw [hv'.2]
  exact copy_all_buffers mem frames loc hread hdis f hf j hj

/-- Witness of C5: requests of 3, 5 and 2 bytes from a memory readable
everywhere. -/
theorem fallback_agrees_with_bulk_copy_witness :
    (copy_memory_process_vm_readv (process_vm_readv memory_all) frames_352 3 0 local_zero).rc
        = some 0
    ∧ (copy_memory_proc_mem (mem_file memory_all) frames_352 0 ⟨0, local_zero⟩).1 = 0
    ∧ (copy_memory_process_vm_readv (process_vm_readv memory_all) frames_352 3 0 local_zero).world
        = (copy_memory_proc_mem (mem_file memory_all) frames_352 0 ⟨0, local_zero⟩).2.2.loc
    ∧ (∀ f ∈ frames_352, ∀ j, j < f.length →
        memory_all (f.start + j)
          = some ((copy_memory_process_vm_readv (process_vm_readv memory_all) frames_352 3 0
              local_zero).world (f.data + j))) :=
  fallback_agrees_with_bulk_copy memory_all frames_352 local_zero 0 0 0 3
    (by decide) (by decide) (by decide) (by decide) (fun _ _ _ _ => rfl)
    (by unfold buffers_disjoint; decide) (by decide)

/-- C5, counterexample: the empty list of requests.  Its ranges are all
readable and disjoint, as are its buffers; `copy_memory_process_vm_readv` returns `-1`
(its boundary search starts below index 0) and `copy_memory_proc_mem`
returns 0. -/
theorem fallback_agrees_with_bulk_copy_counterexample :
    all_readable memory_all [] ∧ targets_disjoint [] ∧ buffers_disjoint []
    ∧ (∀ fuel : Nat,
        (copy_memory_process_vm_readv (process_vm_readv memory_all) [] (fuel + 1) 0
          local_zero).rc = some (-1))
    ∧ (copy_memory_proc_mem (mem_file memory_all) [] 0 ⟨0, local_zero⟩).1 = 0 := by
  refine ⟨fun f hf => by simp at hf, List.Pairwise.nil, List.Pairwise.nil, fun fuel => ?_, rfl⟩
  simp [copy_memory_process_vm_readv, readv_loop, readv_call, process_vm_readv, bulk_copy,
    iov_window, local_iov, remote_iov, to_ssize_t, find_boundary]

/-- A request of length 0 separates the two strategies as well: the bulk copy
succeeds, the fallback fails, since `fread` never counts an item of size 0. -/
theorem fallback_rejects_empty_request :
    (copy_memory_process_vm_readv (process_vm_readv memory_all) [⟨4096, 100, 0⟩] 1 0
        local_zero).rc = some 0
    ∧ (copy_memory_proc_mem (mem_file memory_all) [⟨4096, 100, 0⟩] 0 ⟨0, local_zero⟩).1 = -1 := by
  decide

/-- So does a start address of `2^63` or more: as a `long` it is negative, and
`fseek` fails. -/
theorem fallback_rejects_high_address :
    (copy_memory_process_vm_readv (process_vm_readv memory_all)
        [⟨9223372036854775808, 100, 1⟩] 1 0 local_zero).rc = some 0
    ∧ (copy_memory_proc_mem (mem_file memory_all) [⟨9223372036854775808, 100, 1⟩] 0
        ⟨0, local_zero⟩).1 = -1 := by
  decide

theorem to_size_t_to_ssize_t (x : Int) :
    to_size_t (to_ssize_t x) = (x % 18446744073709551616).toNat := by
  unfold to_size_t to_ssize_t
  congr 1
  omega

/-- After a successful `copy_memory_process_vm_readv`, `total_length` is the
sum of the lengths of this batch (modulo `2^64`), whatever it was before. -/
theorem readv_loop_total_length {W : Type} (readv : W → List iovec → List iovec → Int × W)
    (frames : List mem_data_chunk) :
    ∀ (fuel : Nat) (seg bt : Int) (tl : Nat) (w : W),
      (readv_loop readv frames fuel seg bt tl w).rc = some 0 →
      (readv_loop readv frames fuel seg bt tl w).total_length
        = total_bytes frames % 18446744073709551616 := by
  intro fuel
  induction fuel with
  | zero => intro seg bt tl w h; simp [readv_loop] at h
  | succ fuel ih =>
    intro seg bt tl w hrc
    simp only [readv_loop] at hrc ⊢
    generalize to_ssize_t (readv_call readv frames seg w).1 = br at hrc ⊢
    generalize (readv_call readv frames seg w).2 = w1 at hrc ⊢
    have hfb := find_boundary_spec (frame_bytes frames) (to_ssize_t (bt + br)) frames.length
    generalize find_boundary (frame_bytes frames) (to_ssize_t (bt + br)) frames.length = sg
      at hrc hfb ⊢
    split_ifs at hrc ⊢ with h1 h2 h3
    · simp at hrc
    · simp at hrc
    · rcases hfb with h | ⟨m, hm, hsg, hget⟩
      · omega
      · rw [frame_bytes_get frames m hm] at hget
        have hall := prefix_length_all frames (m + 1) (by omega)
        rw [hall] at hget
        rw [← Option.some.inj hget, to_size_t_to_ssize_t]
        dsimp only
        omega
    · exact ih _ _ _ _ hrc

/-- After a successful `copy_memory_proc_mem`, `total_length` has grown by the
sum of the lengths of the batch (modulo `2^64`). -/
theorem proc_mem_loop_total_length {W : Type} (ops : MemFileOps W) :
    ∀ (fs : List mem_data_chunk) (tl : Nat) (w : W), tl < 18446744073709551616 →
      (proc_mem_loop ops fs tl w).1 = 0 →
      (proc_mem_loop ops fs tl w).2.1 = (tl + total_bytes fs) % 18446744073709551616 := by
  intro fs
  induction fs with
  | nil =>
    intro tl w htl _
    simp only [proc_mem_loop, total_bytes, List.map_nil, List.sum_nil, add_zero]
    omega
  | cons f fs ih =>
    intro tl w htl hrc
    simp only [proc_mem_loop] at hrc ⊢
    split_ifs at hrc ⊢ with h1 h2
    · simp at hrc
    · simp at hrc
    · have hlt : to_size_t ((tl : Int) + f.length) < 18446744073709551616 := by
        unfold to_size_t; omega
      rw [ih _ _ hlt hrc]
      simp only [total_bytes, List.map_cons, List.sum_cons]
      unfold to_size_t
      omega

/-- C10: `total_length` is 5 before a batch of one request of 3 bytes.
`copy_memory_process_vm_readv` returns success and leaves `total_length = 3`
(line 317 assigns `bytes_total`, which line 296 reset to 0), while
`copy_memory_proc_mem` returns success and leaves `total_length = 8`. -/
theorem total_length_overwritten :
    (copy_memory_process_vm_readv (process_vm_readv memory_all) [⟨4096, 100, 3⟩] 1 5
        local_zero).rc = some 0
    ∧ (copy_memory_process_vm_readv (process_vm_readv memory_all) [⟨4096, 100, 3⟩] 1 5
        local_zero).total_length = 3
    ∧ (copy_memory_proc_mem (mem_file memory_all) [⟨4096, 100, 3⟩] 5 ⟨0, local_zero⟩).1 = 0
    ∧ (copy_memory_proc_mem (mem_file memory_all) [⟨4096, 100, 3⟩] 5 ⟨0, local_zero⟩).2.1 = 8 := by
  decide

/-! ## Properties of the region map builder -/

theorem dropWhile_head_not (p : Char → Bool) :
    ∀ (l : List Char) (c : Char) (t : List Char), l.dropWhile p = c :: t → p c = false := by
  intro l
  induction l with
  | nil => intro c t h; simp at h
  | cons a l ih =>
    intro c t h
    rw [List.dropWhile_cons] at h
    by_cases ha : p a = true
    · rw [if_pos ha] at h; exact ih c t h
    · rw [if_neg ha] at h
      have := (List.cons.inj h).1
      subst this
      simpa using ha

theorem scan_path_head (rest p : List Char) (h : scan_path rest = some p) :
    ∃ c cs, p = c :: cs ∧ isspace c = false := by
  unfold scan_path at h
  split at h
  · exact Option.noConfusion h
  · rename_i c cs heq
    have hp := Option.some.inj h
    refine ⟨c, cs, hp.symm, ?_⟩
    cases hd : rest.dropWhile isspace with
    | nil => rw [hd] at heq; simp at heq
    | cons a t =>
      rw [hd, List.takeWhile_cons] at heq
      split at heq
      · have := (List.cons.inj heq).1
        subst this
        exact dropWhile_head_not isspace rest a t hd
      · exact List.noConfusion heq

theorem scan_result_path (l : maps_line) (h : 10 ≤ l.converted) (p : List Char)
    (hp : scan_path l.rest = some p) : scan_result l = (11, p) := by
  unfold scan_result
  rw [if_neg (by omega), hp]

theorem scan_result_no_path (l : maps_line) (h : 10 ≤ l.converted)
    (hp : scan_path l.rest = none) : scan_result l = (10, []) := by
  unfold scan_result
  rw [if_neg (by omega), hp]

theorem scan_path_of_stored (l : maps_line) (h : 10 ≤ l.converted)
    (hne : (scan_result l).2 ≠ []) : scan_path l.rest = some (scan_result l).2 := by
  cases hp : scan_path l.rest with
  | none => rw [scan_result_no_path l h hp] at hne; exact (hne rfl).elim
  | some p => rw [scan_result_path l h p hp]

theorem scan_path_of_nothing_stored (l : maps_line) (h : 10 ≤ l.converted)
    (hnil : (scan_result l).2 = []) : scan_path l.rest = none := by
  cases hp : scan_path l.rest with
  | none => rfl
  | some p =>
    rw [scan_result_path l h p hp] at hnil
    obtain ⟨c, cs, hc, _⟩ := scan_path_head _ _ hp
    rw [hc] at hnil
    exact List.noConfusion hnil

theorem takeWhile_twice (p q : Char → Bool) :
    ∀ l : List Char, (l.takeWhile q).takeWhile p = l.takeWhile (fun c => p c && q c) := by
  intro l
  induction l with
  | nil => rfl
  | cons a l ih =>
    simp only [List.takeWhile_cons]
    cases hq : q a <;> cases hp : p a <;> simp [List.takeWhile_cons, hp, ih]

theorem scan_result_stored (l : maps_line) (h : 10 ≤ l.converted) :
    (scan_result l).2 = (path_field l.rest).takeWhile (fun c => c != Char.ofNat 9) := by
  unfold path_field
  rw [takeWhile_twice]
  have hf : (fun c : Char => (c != Char.ofNat 9) && (c != Char.ofNat 10 && c != Char.ofNat 0))
      = (fun c => c != Char.ofNat 9 && c != Char.ofNat 10 && c != Char.ofNat 0) := by
    funext c
    rw [Bool.and_assoc]
  rw [hf]
  cases hp : scan_path l.rest with
  | none =>
    rw [scan_result_no_path l h hp]
    unfold scan_path at hp
    split at hp
    · rename_i heq; exact heq.symm
    · exact Option.noConfusion hp
  | some p =>
    rw [scan_result_path l h p hp]
    unfold scan_path at hp
    split at hp
    · exact Option.noConfusion hp
    · rename_i c cs heq
      rw [heq]
      exact (Option.some.inj hp).symm

theorem line_region_fields (l : maps_line) :
    (line_region l).start = l.addr_start
    ∧ (line_region l).length = to_size_t ((l.addr_end : Int) - l.addr_start)
    ∧ (line_region l).offset = l.offset := by
  unfold line_region region_of_scan
  simp only
  split_ifs <;> exact ⟨rfl, rfl, rfl⟩

theorem line_region_of_path (l : maps_line) (h : 10 ≤ l.converted) :
    (scan_path l.rest = some "[vdso]".toList →
        (line_region l).type = .MEM_REGION_TYPE_VDSO ∧ (line_region l).path = none)
    ∧ (scan_path l.rest = some "[vsyscall]".toList →
        (line_region l).type = .MEM_REGION_TYPE_VSYSCALL ∧ (line_region l).path = none)
    ∧ (∀ q : List Char, scan_path l.rest = some (q ++ " (deleted)".toList) →
        (line_region l).type = .MEM_REGION_TYPE_DELETED ∧ (line_region l).path = some q)
    ∧ (∀ p : List Char, scan_path l.rest = some p → p ≠ "[vdso]".toList →
        p ≠ "[vsyscall]".toList → ¬ " (deleted)".toList <:+ p →
        (line_region l).type = .MEM_REGION_TYPE_MMAP ∧ (line_region l).path = some p)
    ∧ (scan_path l.rest = none →
        (line_region l).type = mem_region_init.type
        ∧ (line_region l).type = .MEM_REGION_TYPE_ANONYMOUS ∧ (line_region l).path = none) := by
  refine ⟨?_, ?_, ?_, ?_, ?_⟩
  · intro hp
    unfold line_region
    rw [scan_result_path l h _ hp]
    simp [region_of_scan, mem_region_init]
  · intro hp
    unfold line_region
    rw [scan_result_path l h _ hp]
    simp [region_of_scan, mem_region_init]
  · intro q hp
    obtain ⟨c, cs, hc, hsp⟩ := scan_path_head _ _ hp
    have hq : q ≠ [] := by
      rintro rfl
      simp only [List.nil_append] at hc
      have : c = Char.ofNat 32 := by
        have := congrArg List.head? hc
        simpa using this.symm
      subst this
      simp [isspace] at hsp
    have hlen : (q ++ " (deleted)".toList).length = q.length + 10 := by simp
    have hqpos : 0 < q.length := List.length_pos.mpr hq
    unfold line_region
    rw [scan_result_path l h _ hp]
    unfold region_of_scan
    have h1 : q ++ " (deleted)".toList ≠ [] := by simp
    have h2 : q ++ " (deleted)".toList ≠ "[vdso]".toList := by
      intro e; have := congrArg List.length e; simp at this
    have h3 : q ++ " (deleted)".toList ≠ "[vsyscall]".toList := by
      intro e
      have := congrArg List.length e
      rw [hlen] at this
      have h10 : "[vsyscall]".toList.length = 10 := by decide
      omega
    have h4 : (q ++ " (deleted)".toList).drop ((q ++ " (deleted)".toList).length - 10)
        = " (deleted)".toList := by
      rw [hlen, Nat.add_sub_cancel, List.drop_left]
    have h5 : (q ++ " (deleted)".toList).take ((q ++ " (deleted)".toList).length - 10) = q := by
      rw [hlen, Nat.add_sub_cancel, List.take_left]
    simp only [h4, h5]
    rw [if_pos ⟨by simp, h1⟩, if_neg h2, if_neg h3, if_pos ⟨by omega, trivial⟩]
    exact ⟨rfl, rfl⟩
  · intro p hp n1 n2 n3
    obtain ⟨c, cs, hc, _⟩ := scan_path_head _ _ hp
    have h1 : p ≠ [] := by rw [hc]; simp
    unfold line_region
    rw [scan_result_path l h _ hp]
    unfold region_of_scan
    have h4 : ¬ (p.length > 10 ∧ p.drop (p.length - 10) = " (deleted)".toList) := by
      rintro ⟨_, hd⟩
      apply n3
      rw [← hd]
      exact List.drop_suffix _ _
    rw [if_pos ⟨by simp, h1⟩, if_neg n1, if_neg n2, if_neg h4]
    exact ⟨rfl, rfl⟩
  · intro hp
    unfold line_region
    rw [scan_result_no_path l h hp]
    simp [region_of_scan, mem_region_init]

theorem create_maps_loop_step {M : Type} (ops : MemMapOps M) (l : maps_line)
    (ls : List maps_line) (map : M) (h : 10 ≤ l.converted)
    (hfit : (scan_result l).2.length < PATH_MAX) :
    create_maps_loop ops (l :: ls) map
      = if (ops.mem_map_add_region map (line_region l)).1 ≠ 0 then .null
        else create_maps_loop ops ls (ops.mem_map_add_region map (line_region l)).2 := by
  have hs : ¬ (scan_result l).1 < 10 := by
    unfold scan_result
    rw [if_neg (by omega)]
    split <;> simp
  have hsome : sscanf_maps l = some ((scan_result l).1, (scan_result l).2) := by
    unfold sscanf_maps; rw [if_pos hfit]
  rw [create_maps_loop, hsome]
  simp only [hs, if_false]
  rfl

/-- C7 (as amended): in `create_maps`, for a line that converts at least ten
fields and whose stored path text is shorter than `PATH_MAX` (so that it fits
the buffer `path`): the call of `sscanf` is defined, the region passed to
`mem_map_add_region` is `line_region`, and its kind and stored path are
decided by the path text `sscanf` stores.  That text is the trailing path
text of the line up to its first tab, the whole of it when it holds no tab.
`[vdso]` gives VDSO and no path; `[vsyscall]` gives VSYSCALL and no path; a
text `q ++ " (deleted)"` gives DELETED and the path `q`; any other non-empty
text gives MMAP and the text itself as the path; and when nothing is stored
the kind and the path are those `mem_region_init` left, Anonymous and none. -/
theorem create_maps_classifies (l : maps_line) (h : 10 ≤ l.converted)
    (hfit : (scan_result l).2.length < PATH_MAX) :
    sscanf_maps l = some (scan_result l)
    ∧ (∀ (M : Type) (ops : MemMapOps M) (ls : List maps_line) (map : M),
        create_maps_loop ops (l :: ls) map
          = if (ops.mem_map_add_region map (line_region l)).1 ≠ 0 then .null
            else create_maps_loop ops ls (ops.mem_map_add_region map (line_region l)).2)
    ∧ (scan_result l).2 = (path_field l.rest).takeWhile (fun c => c != Char.ofNat 9)
    ∧ (Char.ofNat 9 ∉ path_field l.rest → (scan_result l).2 = path_field l.rest)
    ∧ ((scan_result l).2 = "[vdso]".toList →
        (line_region l).type = .MEM_REGION_TYPE_VDSO ∧ (line_region l).path = none)
    ∧ ((scan_result l).2 = "[vsyscall]".toList →
        (line_region l).type = .MEM_REGION_TYPE_VSYSCALL ∧ (line_region l).path = none)
    ∧ (∀ q : List Char, (scan_result l).2 = q ++ " (deleted)".toList →
        (line_region l).type = .MEM_REGION_TYPE_DELETED ∧ (line_region l).path = some q)
    ∧ ((scan_result l).2 ≠ [] → (scan_result l).2 ≠ "[vdso]".toList →
        (scan_result l).2 ≠ "[vsyscall]".toList → ¬ " (deleted)".toList <:+ (scan_result l).2 →
        (line_region l).type = .MEM_REGION_TYPE_MMAP
        ∧ (line_region l).path = some (scan_result l).2)
    ∧ ((scan_result l).2 = [] →
        (line_region l).type = mem_region_init.type
        ∧ (line_region l).type = .MEM_REGION_TYPE_ANONYMOUS ∧ (line_region l).path = none) := by
  obtain ⟨r1, r2, r3, r4, r5⟩ := line_region_of_path l h
  have hstored := scan_result_stored l h
  refine ⟨?_, ?_, hstored, ?_, ?_, ?_, ?_, ?_, ?_⟩
  · unfold sscanf_maps; rw [if_pos hfit]
  · intro M ops ls map
    exact create_maps_loop_step ops l ls map h hfit
  · intro hno
    rw [hstored]
    apply List.takeWhile_eq_self_iff.mpr
    intro c hc
    have : c ≠ Char.ofNat 9 := fun e => hno (e ▸ hc)
    simpa using this
  · intro hp
    apply r1
    rw [← hp]
    exact scan_path_of_stored l h (by rw [hp]; decide)
  · intro hp
    apply r2
    rw [← hp]
    exact scan_path_of_stored l h (by rw [hp]; decide)
  · intro q hp
    apply r3
    rw [← hp]
    exact scan_path_of_stored l h (by rw [hp]; simp)
  · intro n0 n1 n2 n3
    exact r4 _ (scan_path_of_stored l h n0) n1 n2 n3
  · intro hnil
    exact r5 (scan_path_of_nothing_stored l h hnil)

/-- Witness of C7: the mapping of a deleted file; the path is stored without
its suffix. -/
theorem create_maps_classifies_witness :
    (line_region ⟨10, 12288, 20480, 4096, " /tmp/old file (deleted)\n".toList⟩).type
        = .MEM_REGION_TYPE_DELETED
    ∧ (line_region ⟨10, 12288, 20480, 4096, " /tmp/old file (deleted)\n".toList⟩).path
        = some "/tmp/old file".toList :=
  (create_maps_classifies ⟨10, 12288, 20480, 4096, " /tmp/old file (deleted)\n".toList⟩
    (by decide) (by decide)).2.2.2.2.2.2.1 "/tmp/old file".toList (by decide)

/-- C7, counterexample: the line whose trailing path text is
`/a<TAB>b (deleted)`.  The text ends in ` (deleted)`, and the region is of kind
MMAP with the path `/a`: the format `%[^\t\n]` stops at the tab. -/
theorem create_maps_classifies_counterexample :
    10 ≤ tab_line.converted
    ∧ path_field tab_line.rest = "/a".toList ++ Char.ofNat 9 :: "b".toList ++ " (deleted)".toList
    ∧ create_maps list_map (some [tab_line])
        = .map [ { start := 4096, length := 4096, offset := 0,
                   type := .MEM_REGION_TYPE_MMAP, path := some "/a".toList } ]
    ∧ ¬ ((line_region tab_line).type = .MEM_REGION_TYPE_DELETED
          ∧ (line_region tab_line).path = some ("/a".toList ++ Char.ofNat 9 :: "b".toList)) := by
  decide

theorem create_maps_loop_eq {M : Type} (ops : MemMapOps M)
    (hadd : ∀ (m : M) (r : mem_region), (ops.mem_map_add_region m r).1 = 0) :
    ∀ (lines : List maps_line) (map : M),
      (∀ l ∈ lines, (scan_result l).2.length < PATH_MAX) →
      create_maps_loop ops lines map
        = .map (((lines.filter fun l => decide (10 ≤ l.converted)).map line_region).foldl
            (fun m r => (ops.mem_map_add_region m r).2) map) := by
  intro lines
  induction lines with
  | nil => intro map _; rfl
  | cons l ls ih =>
    intro map hfit
    have hl := hfit l (List.mem_cons_self _ _)
    have hls : ∀ l ∈ ls, (scan_result l).2.length < PATH_MAX :=
      fun g hg => hfit g (List.mem_cons_of_mem _ hg)
    by_cases h : l.converted < 10
    · have hs : scan_result l = (l.converted, []) := by
        unfold scan_result; rw [if_pos h]
      have hsome : sscanf_maps l = some (l.converted, []) := by
        unfold sscanf_maps; rw [if_pos hl, hs]
      rw [create_maps_loop, hsome]
      simp only [h, if_true]
      rw [ih map hls, List.filter_cons_of_neg (by simpa using h)]
    · rw [create_maps_loop_step ops l ls map (by omega) hl, if_neg (by simp [hadd]), ih _ hls,
        List.filter_cons_of_pos (by simpa using h)]
      rfl

/-- When every stored path text fits the buffer and every
`mem_map_add_region` succeeds, `create_maps` returns the indexed map obtained
by inserting into the initial map, in input order, one region for each line
that converts at least ten fields and none for the others; the region of such
a line has the parsed start address as `start`, the `size_t` difference
`addr_end - addr_start` as `length`, and the parsed offset as `offset`. -/
theorem create_maps_of_fitting_lines {M : Type} (ops : MemMapOps M)
    (hadd : ∀ (m : M) (r : mem_region), (ops.mem_map_add_region m r).1 = 0)
    (lines : List maps_line) (hfit : ∀ l ∈ lines, (scan_result l).2.length < PATH_MAX) :
    create_maps ops (some lines)
        = .map (ops.mem_map_create_region_index
            (((lines.filter fun l => decide (10 ≤ l.converted)).map line_region).foldl
              (fun m r => (ops.mem_map_add_region m r).2) ops.mem_map_init))
    ∧ (∀ l ∈ lines, 10 ≤ l.converted →
        (line_region l).start = l.addr_start
        ∧ ((line_region l).length : Int)
            = ((l.addr_end : Int) - l.addr_start) % 18446744073709551616
        ∧ (l.addr_start ≤ l.addr_end → l.addr_end < 18446744073709551616 →
            (line_region l).length = l.addr_end - l.addr_start)
        ∧ (line_region l).offset = l.offset) := by
  constructor
  · unfold create_maps
    simp only [create_maps_loop_eq ops hadd lines ops.mem_map_init hfit]
  · intro l _ _
    obtain ⟨h1, h2, h3⟩ := line_region_fields l
    refine ⟨h1, ?_, ?_, h3⟩
    · rw [h2]; unfold to_size_t; omega
    · intro hle hlt
      rw [h2]; unfold to_size_t; omega

/-- Three lines, the second of which does not parse: the map holds the regions
of the first and the third. -/
theorem create_maps_sample :
    create_maps list_map (some sample_lines)
      = .map [ { start := 4096, length := 4096, offset := 0,
                 type := .MEM_REGION_TYPE_MMAP, path := some "/usr/lib/libc.so".toList },
               { start := 12288, length := 8192, offset := 4096,
                 type := .MEM_REGION_TYPE_DELETED, path := some "/tmp/old file".toList } ] := by
  decide

theorem takeWhile_replicate_append (p : Char → Bool) (a b : Char) (ha : p a = true)
    (hb : p b = false) :
    ∀ n : Nat, (List.replicate n a ++ [b]).takeWhile p = List.replicate n a := by
  intro n
  induction n with
  | zero => simp [List.takeWhile_cons, hb]
  | succ n ih => simp [List.replicate_succ, List.takeWhile_cons, ha, ih]

theorem scan_result_long_line : (scan_result long_line).2 = List.replicate PATH_MAX 'a' := by
  have hp : scan_path long_line.rest = some (List.replicate PATH_MAX 'a') := by
    have hd : long_line.rest.dropWhile isspace = List.replicate PATH_MAX 'a' ++ [Char.ofNat 10] := by
      unfold long_line
      simp only
      rw [List.dropWhile_cons, if_pos (by decide)]
      have e : PATH_MAX = 4095 + 1 := rfl
      rw [e, List.replicate_succ, List.cons_append, List.dropWhile_cons, if_neg (by decide)]
    unfold scan_path
    rw [hd, takeWhile_replicate_append _ 'a' (Char.ofNat 10) (by decide) (by decide)]
    have e : PATH_MAX = 4095 + 1 := rfl
    rw [e, List.replicate_succ]
  unfold scan_result
  rw [if_neg (by decide), hp]

/-- C8: a line that converts eleven fields and whose path is `PATH_MAX` letters.
The `sscanf` of proc.c line 97 stores `PATH_MAX` characters and a NUL in
`path[PATH_MAX]`, one byte more than the buffer holds: the behaviour of
`create_maps` is undefined, and no region with the parsed start address is
promised. -/
theorem create_maps_path_overrun :
    10 ≤ long_line.converted
    ∧ (scan_result long_line).1 = 11
    ∧ (scan_result long_line).2.length = PATH_MAX
    ∧ create_maps list_map (some [long_line]) = .undefined := by
  have h2 := scan_result_long_line
  have hlen : (scan_result long_line).2.length = PATH_MAX := by
    rw [h2, List.length_replicate]
  refine ⟨by decide, ?_, hlen, ?_⟩
  · have hne : (scan_result long_line).2 ≠ [] := by
      intro e; rw [e] at hlen; exact absurd hlen (by decide)
    unfold scan_result at hne ⊢
    rw [if_neg (by decide)] at hne ⊢
    split
    · rename_i heq; rw [heq] at hne; exact (hne rfl).elim
    · rfl
  · have hnone : sscanf_maps long_line = none := by
      unfold sscanf_maps; rw [if_neg (by omega)]
    simp only [create_maps, create_maps_loop, hnone]

end Tbstack
